import Mathlib

/-!
# Verification of the cognitive-task backend geometry/scoring core

Shallow embedding of the geometry and scoring functions of the
`cognitive backend` package (files `geometry_utils.py`, `scoring.py`,
`main.py`).  Python floats are idealised as exact rationals (`ℚ`) where the
code only adds, multiplies, divides and compares, and as real numbers (`ℝ`)
where the code takes square roots, trigonometric functions, exponentials or
real powers.  Euclidean distances that are only compared or maximised are
represented by their squares (squaring is monotone on nonnegative reals),
which keeps those definitions executable.  External kernels (scipy's
`Delaunay` and `ConvexHull`) are modelled as oracle parameters, and the
NumPy / Python random generators as explicit streams of draws with a
position, so that seeding and consumption order are part of the model.
-/

/-- A 2-D point with exact rational coordinates, `{x, y}` in the source. -/
abbrev Pt : Type := ℚ × ℚ

/-- Squared Euclidean distance between two points. The source computes
`math.sqrt(dx**2 + dy**2)`; we keep the square, which determines the
distance uniquely. -/
def sqDist (p q : Pt) : ℚ := (p.1 - q.1) ^ 2 + (p.2 - q.2) ^ 2

theorem sqDist_self (p : Pt) : sqDist p p = 0 := by simp [sqDist]

theorem sqDist_nonneg (p q : Pt) : 0 ≤ sqDist p q := by
  have h1 : 0 ≤ (p.1 - q.1) ^ 2 := sq_nonneg _
  have h2 : 0 ≤ (p.2 - q.2) ^ 2 := sq_nonneg _
  simpa [sqDist] using add_nonneg h1 h2

theorem sqDist_comm (p q : Pt) : sqDist p q = sqDist q p := by
  simp [sqDist]; ring

/-! ## C6: vertex-order similarity (geometry_utils.compute_vertex_order_similarity)

The source computes the longest common subsequence by the classical dynamic
program `dp[i][j] = dp[i-1][j-1] + 1` on a match and
`max (dp[i-1][j]) (dp[i][j-1])` otherwise; `lcsLength` is the same recurrence
written as a recursion on the two sequences. -/

/-- Helper realising one row of the LCS recurrence: `lcsGo a f t` is the LCS
length of `a :: as` against `t`, where `f` computes the LCS of `as` against
any suffix.  Split off so that both recursions are structural (hence
evaluable by the kernel). -/
def lcsGo (a : ℤ) (f : List ℤ → ℕ) : List ℤ → ℕ
  | [] => 0
  | b :: bs => if a = b then f bs + 1 else max (f (b :: bs)) (lcsGo a f bs)

def lcsLength : List ℤ → List ℤ → ℕ
  | [] => fun _ => 0
  | a :: as => lcsGo a (lcsLength as)

theorem lcsLength_nil (t : List ℤ) : lcsLength [] t = 0 := rfl

theorem lcsLength_cons_nil (a : ℤ) (as : List ℤ) : lcsLength (a :: as) [] = 0 := rfl

/-- The defining recurrence of the source's dynamic program. -/
theorem lcsLength_cons_cons (a b : ℤ) (as bs : List ℤ) :
    lcsLength (a :: as) (b :: bs) =
      if a = b then lcsLength as bs + 1
      else max (lcsLength as (b :: bs)) (lcsLength (a :: as) bs) := rfl

/-- Embedding of `compute_vertex_order_similarity`: LCS length divided by the
longer length, 0 when either sequence is empty. -/
def compute_vertex_order_similarity (submitted_order true_order : List ℤ) : ℚ :=
  if submitted_order = [] ∨ true_order = [] then 0
  else (lcsLength submitted_order true_order : ℚ) /
    (max submitted_order.length true_order.length : ℕ)

/-- Levenshtein edit distance, the metric named by the claim: unit-cost
insertions, deletions and substitutions.  `edGo a f t` is the distance of
`a :: as` to `t` where `f` is the distance function of `as`; the split keeps
both recursions structural. -/
def edGo (a : ℤ) (f : List ℤ → ℕ) : List ℤ → ℕ
  | [] => f [] + 1
  | b :: bs =>
      if a = b then f bs
      else 1 + min (f bs) (min (edGo a f bs) (f (b :: bs)))

def editDistance : List ℤ → List ℤ → ℕ
  | [] => fun t => t.length
  | a :: as => edGo a (editDistance as)

theorem lcsLength_le_left (s : List ℤ) : ∀ t, lcsLength s t ≤ s.length := by
  induction s with
  | nil => intro t; simp [lcsLength]
  | cons a as ih =>
      intro t
      induction t with
      | nil => simp [lcsLength, lcsGo]
      | cons b bs iht =>
          rw [lcsLength_cons_cons]
          rcases em (a = b) with h | h
          · rw [if_pos h]
            have := ih bs
            simp only [List.length_cons]
            omega
          · rw [if_neg h]
            have h1 := ih (b :: bs)
            simp only [List.length_cons] at iht ⊢
            omega

theorem lcsLength_le_right (s : List ℤ) : ∀ t, lcsLength s t ≤ t.length := by
  induction s with
  | nil => intro t; simp [lcsLength]
  | cons a as ih =>
      intro t
      induction t with
      | nil => simp [lcsLength, lcsGo]
      | cons b bs iht =>
          rw [lcsLength_cons_cons]
          rcases em (a = b) with h | h
          · rw [if_pos h]
            have := ih bs
            simp only [List.length_cons]
            omega
          · rw [if_neg h]
            have h1 := ih (b :: bs)
            simp only [List.length_cons] at h1 ⊢
            omega

theorem lcsLength_self (s : List ℤ) : lcsLength s s = s.length := by
  induction s with
  | nil => simp [lcsLength]
  | cons a as ih => rw [lcsLength_cons_cons, if_pos rfl, ih]; rfl

/-- If the LCS has the full length of both sequences, the sequences are equal. -/
theorem eq_of_lcsLength_eq :
    ∀ s t : List ℤ, lcsLength s t = s.length → s.length = t.length → s = t := by
  intro s
  induction s with
  | nil =>
      intro t _ hlen
      simp only [List.length_nil] at hlen
      exact (List.length_eq_zero.mp hlen.symm).symm
  | cons a as ih =>
      intro t hs hlen
      cases t with
      | nil => simp [lcsLength, lcsGo] at hs
      | cons b bs =>
          rcases em (a = b) with h | h
          · subst h
            rw [lcsLength_cons_cons, if_pos rfl] at hs
            simp only [List.length_cons] at hs hlen
            have := ih bs (by omega) (by omega)
            simp [this]
          · exfalso
            rw [lcsLength_cons_cons, if_neg h] at hs
            have h1 := lcsLength_le_left as (b :: bs)
            have h2 := lcsLength_le_right (a :: as) bs
            simp only [List.length_cons] at hs hlen h1 h2
            omega

/-- C6 (counterexample): similarity is NOT monotonically non-increasing in
Levenshtein edit distance.  Against true order `[1,2,3]`, the submission
`[4,5,3]` has edit distance 2 and similarity 1/3, while `[4,1,5,2,6,3]` has
the larger edit distance 3 but the larger similarity 1/2. -/
theorem c6_counterexample :
    editDistance [4, 5, 3] [1, 2, 3] < editDistance [4, 1, 5, 2, 6, 3] [1, 2, 3] ∧
    compute_vertex_order_similarity [4, 5, 3] [1, 2, 3] <
      compute_vertex_order_similarity [4, 1, 5, 2, 6, 3] [1, 2, 3] := by
  have l1 : lcsLength [4, 5, 3] [1, 2, 3] = 1 := by decide
  have l2 : lcsLength [4, 1, 5, 2, 6, 3] [1, 2, 3] = 3 := by decide
  refine ⟨by decide, ?_⟩
  unfold compute_vertex_order_similarity
  rw [if_neg (by simp), if_neg (by simp), l1, l2]
  norm_num

/-- C6 (amended): `compute_vertex_order_similarity` returns the LCS length
divided by the longer length (0 for empty input), always lies in [0, 1], and
equals 1 exactly when the two sequences are equal and nonempty.  The claimed
monotonicity in edit distance is refuted by `c6_counterexample`. -/
theorem c6_vertex_order_similarity (s t : List ℤ) :
    (0 ≤ compute_vertex_order_similarity s t ∧ compute_vertex_order_similarity s t ≤ 1) ∧
    (compute_vertex_order_similarity s t = 1 ↔ s = t ∧ s ≠ []) := by
  rcases he : decide (s = [] ∨ t = []) with _ | _
  · -- both sequences nonempty
    have hne := of_decide_eq_false he
    push_neg at hne
    obtain ⟨hs, ht⟩ := hne
    have hs0 : 0 < s.length := List.length_pos.mpr hs
    have ht0 : 0 < t.length := List.length_pos.mpr ht
    have hmax : (0 : ℚ) < (max s.length t.length : ℕ) := by
      have : 0 < max s.length t.length := lt_max_of_lt_left hs0
      exact_mod_cast this
    have hval : compute_vertex_order_similarity s t =
        (lcsLength s t : ℚ) / (max s.length t.length : ℕ) := by
      unfold compute_vertex_order_similarity
      rw [if_neg (by tauto)]
    have hle : (lcsLength s t : ℚ) ≤ (max s.length t.length : ℕ) := by
      have h1 := lcsLength_le_left s t
      have h2 : lcsLength s t ≤ max s.length t.length := le_trans h1 (le_max_left _ _)
      exact_mod_cast h2
    refine ⟨⟨?_, ?_⟩, ?_⟩
    · rw [hval]
      positivity
    · rw [hval]
      exact div_le_one_of_le₀ hle (le_of_lt hmax)
    · rw [hval]
      constructor
      · intro h1
        have hlcs : (lcsLength s t : ℚ) = (max s.length t.length : ℕ) := by
          field_simp at h1
          exact_mod_cast h1
        have hlcsn : lcsLength s t = max s.length t.length := by exact_mod_cast hlcs
        have hL := lcsLength_le_left s t
        have hR := lcsLength_le_right s t
        have hsl : lcsLength s t = s.length := le_antisymm hL (by omega)
        have hst : s.length = t.length := by omega
        exact ⟨eq_of_lcsLength_eq s t hsl hst, hs⟩
      · rintro ⟨rfl, _⟩
        rw [lcsLength_self, max_self]
        field_simp
  · -- one sequence empty: similarity is 0 and the iff is vacuous
    have hor := of_decide_eq_true he
    have hval : compute_vertex_order_similarity s t = 0 := by
      unfold compute_vertex_order_similarity
      rw [if_pos hor]
    refine ⟨⟨le_of_eq hval.symm, by rw [hval]; norm_num⟩, ?_⟩
    rw [hval]
    constructor
    · intro h; exact absurd h (by norm_num)
    · rintro ⟨rfl, hs⟩
      rcases hor with h | h
      · exact absurd h hs
      · exact absurd h hs

/-! ## C8 / C7 (part): Hausdorff distance (geometry_utils.compute_hausdorff_distance)

The source converts both point lists to arrays and takes
`max(directed_hausdorff(A,B), directed_hausdorff(B,A))`; on empty input the
scipy call raises, the `except` clause prints and returns `float('inf')`.
Distances are represented by their squares (monotone on nonnegatives), and
the `inf` sentinel by `⊤` of `WithTop ℚ`. -/

/-- Minimum of a nonempty rational list, as `foldl min` over the tail. -/
def qListMin : List ℚ → ℚ
  | [] => 0
  | x :: xs => xs.foldl min x

/-- Maximum of a nonempty rational list, as `foldl max` over the tail. -/
def qListMax : List ℚ → ℚ
  | [] => 0
  | x :: xs => xs.foldl max x

theorem foldl_min_le_init (xs : List ℚ) (x : ℚ) : xs.foldl min x ≤ x := by
  induction xs generalizing x with
  | nil => simp
  | cons y ys ih => exact le_trans (ih (min x y)) (min_le_left x y)

theorem foldl_min_le_mem (xs : List ℚ) (x y : ℚ) (h : y ∈ xs) : xs.foldl min x ≤ y := by
  induction xs generalizing x with
  | nil => simp at h
  | cons z zs ih =>
      rcases List.mem_cons.mp h with rfl | hz
      · exact le_trans (foldl_min_le_init zs (min x y)) (min_le_right x y)
      · exact ih (min x z) hz

theorem le_foldl_min (xs : List ℚ) (x c : ℚ) (hx : c ≤ x) (h : ∀ y ∈ xs, c ≤ y) :
    c ≤ xs.foldl min x := by
  induction xs generalizing x with
  | nil => simpa using hx
  | cons z zs ih =>
      exact ih (min x z) (le_min hx (h z (List.mem_cons_self z zs)))
        (fun y hy => h y (List.mem_cons_of_mem z hy))

theorem qListMin_le_mem (l : List ℚ) (y : ℚ) (h : y ∈ l) : qListMin l ≤ y := by
  cases l with
  | nil => simp at h
  | cons x xs =>
      rcases List.mem_cons.mp h with rfl | hy
      · exact foldl_min_le_init xs y
      · exact foldl_min_le_mem xs x y hy

theorem le_qListMin (l : List ℚ) (c : ℚ) (hne : l ≠ []) (h : ∀ y ∈ l, c ≤ y) :
    c ≤ qListMin l := by
  cases l with
  | nil => exact absurd rfl hne
  | cons x xs =>
      exact le_foldl_min xs x c (h x (List.mem_cons_self x xs))
        (fun y hy => h y (List.mem_cons_of_mem x hy))

theorem le_foldl_max_init (xs : List ℚ) (x : ℚ) : x ≤ xs.foldl max x := by
  induction xs generalizing x with
  | nil => simp
  | cons y ys ih => exact le_trans (le_max_left x y) (ih (max x y))

theorem foldl_max_le (xs : List ℚ) (x c : ℚ) (hx : x ≤ c) (h : ∀ y ∈ xs, y ≤ c) :
    xs.foldl max x ≤ c := by
  induction xs generalizing x with
  | nil => simpa using hx
  | cons z zs ih =>
      exact ih (max x z) (max_le hx (h z (List.mem_cons_self z zs)))
        (fun y hy => h y (List.mem_cons_of_mem z hy))

theorem qListMax_le (l : List ℚ) (c : ℚ) (hne : l ≠ []) (h : ∀ y ∈ l, y ≤ c) :
    qListMax l ≤ c := by
  cases l with
  | nil => exact absurd rfl hne
  | cons x xs =>
      exact foldl_max_le xs x c (h x (List.mem_cons_self x xs))
        (fun y hy => h y (List.mem_cons_of_mem x hy))

theorem mem_le_foldl_max (xs : List ℚ) : ∀ x y : ℚ, y ∈ xs → y ≤ xs.foldl max x := by
  induction xs with
  | nil => intro x y h; simp at h
  | cons z zs ih =>
      intro x y h
      rcases List.mem_cons.mp h with rfl | hz
      · exact le_trans (le_max_right x y) (le_foldl_max_init zs (max x y))
      · exact ih (max x z) y hz

theorem le_qListMax_mem (l : List ℚ) (y : ℚ) (h : y ∈ l) : y ≤ qListMax l := by
  cases l with
  | nil => simp at h
  | cons x xs =>
      rcases List.mem_cons.mp h with rfl | hy
      · exact le_foldl_max_init xs y
      · exact mem_le_foldl_max xs x y hy

/-- Squared directed Hausdorff distance `max_{a ∈ A} min_{b ∈ B} d(a,b)²`,
the quantity scipy's `directed_hausdorff` computes (squared). -/
def directed_hausdorff_sq (A B : List Pt) : ℚ :=
  qListMax (A.map fun a => qListMin (B.map fun b => sqDist a b))

/-- Embedding of `compute_hausdorff_distance` with squared distances:
`max` of the two directed distances; `⊤` models the `float('inf')` returned
by the `except` clause when either array is empty (scipy raises there). -/
def compute_hausdorff_distance_sq (A B : List Pt) : WithTop ℚ :=
  if A = [] ∨ B = [] then ⊤
  else ((max (directed_hausdorff_sq A B) (directed_hausdorff_sq B A) : ℚ) : WithTop ℚ)

theorem directed_hausdorff_sq_self (A : List Pt) (h : A ≠ []) :
    directed_hausdorff_sq A A = 0 := by
  unfold directed_hausdorff_sq
  have hz : ∀ y ∈ A.map (fun a => qListMin (A.map fun b => sqDist a b)), y = 0 := by
    intro y hy
    rcases List.mem_map.mp hy with ⟨a, ha, rfl⟩
    have h1 : qListMin (A.map fun b => sqDist a b) ≤ 0 := by
      have : sqDist a a ∈ A.map fun b => sqDist a b :=
        List.mem_map.mpr ⟨a, ha, rfl⟩
      simpa [sqDist_self] using qListMin_le_mem _ _ this
    have h2 : (0 : ℚ) ≤ qListMin (A.map fun b => sqDist a b) := by
      refine le_qListMin _ _ (by simpa using h) ?_
      intro y hy
      rcases List.mem_map.mp hy with ⟨b, _, rfl⟩
      exact sqDist_nonneg a b
    linarith
  have hne : A.map (fun a => qListMin (A.map fun b => sqDist a b)) ≠ [] := by
    simpa using h
  have h1 := qListMax_le _ 0 hne (fun y hy => le_of_eq (hz y hy))
  have h2 : (0 : ℚ) ≤ qListMax (A.map fun a => qListMin (A.map fun b => sqDist a b)) := by
    cases hA : A with
    | nil => exact absurd hA h
    | cons a as =>
        have hmem : qListMin ((a :: as).map fun b => sqDist a b) ∈
            (a :: as).map (fun x => qListMin ((a :: as).map fun b => sqDist x b)) :=
          List.mem_map.mpr ⟨a, List.mem_cons_self a as, rfl⟩
        have := le_qListMax_mem _ _ hmem
        have h0 : (0 : ℚ) ≤ qListMin ((a :: as).map fun b => sqDist a b) := by
          refine le_qListMin _ _ (by simp) ?_
          intro y hy
          rcases List.mem_map.mp hy with ⟨b, _, rfl⟩
          exact sqDist_nonneg a b
        subst hA
        linarith
  linarith

/-- C8: the Hausdorff metric of the source is symmetric, and zero on a
nonempty set compared with itself (on empty input both orders give `⊤`,
preserving symmetry). -/
theorem c8_hausdorff_symm_self_zero (A B : List Pt) :
    compute_hausdorff_distance_sq A B = compute_hausdorff_distance_sq B A ∧
    (A ≠ [] → compute_hausdorff_distance_sq A A = 0) := by
  constructor
  · unfold compute_hausdorff_distance_sq
    rcases em (A = [] ∨ B = []) with h | h
    · rw [if_pos h, if_pos (Or.symm h)]
    · rw [if_neg h, if_neg (fun hc => h (Or.symm hc)), max_comm]
  · intro hA
    unfold compute_hausdorff_distance_sq
    rw [if_neg (by tauto), directed_hausdorff_sq_self A hA]
    simp

/-- C8 (witness): concrete instances of symmetry and self-distance zero. -/
theorem c8_witness :
    compute_hausdorff_distance_sq [(0, 0), (2, 1)] [(1, 1)] =
      compute_hausdorff_distance_sq [(1, 1)] [(0, 0), (2, 1)] ∧
    compute_hausdorff_distance_sq [(0, 0), (2, 1)] [(0, 0), (2, 1)] = 0 :=
  ⟨(c8_hausdorff_symm_self_zero [(0, 0), (2, 1)] [(1, 1)]).1,
   (c8_hausdorff_symm_self_zero [(0, 0), (2, 1)] [(0, 0), (2, 1)]).2 (by decide)⟩

/-! ## C5: Delaunay lure analysis (scoring.analyze_delaunay_lures)

The function receives the point list, the true visiting order and the user's
click sequence; it builds the edge set of the scipy Delaunay triangulation of
the points (`tri.simplices`), then walks consecutive click pairs, counting a
pair as a mistake when it is not the next-hop edge of the true order (found
via `list.index`, i.e. the FIRST occurrence) and as a lure when the sorted
pair is a Delaunay edge.  The triangulation kernel is modelled as an oracle
argument: `none` models the `except` branch around `Delaunay(coords)`. -/

/-- `tuple(sorted((u, v)))` of the source. -/
def sortPairZ (u v : ℤ) : ℤ × ℤ := if u ≤ v then (u, v) else (v, u)

/-- A triangle of the oracle triangulation: three vertex indices. -/
abbrev TriZ : Type := ℤ × ℤ × ℤ

/-- The three sorted edges `(s[i], s[(i+1)%3])` of one simplex. -/
def simplexEdges (t : TriZ) : List (ℤ × ℤ) :=
  [sortPairZ t.1 t.2.1, sortPairZ t.2.1 t.2.2, sortPairZ t.2.2 t.1]

/-- The Delaunay edge set (as a list with possible repetitions; only
membership is used, matching the Python `set`). -/
def delaunayEdgeList (tris : List TriZ) : List (ℤ × ℤ) :=
  tris.flatMap simplexEdges

/-- Python's `list.index`: position of the first occurrence, `none` models
the `ValueError` caught by the source. -/
def firstIndex? : List ℤ → ℤ → Option ℕ
  | [], _ => none
  | a :: as, x => if a = x then some 0 else (firstIndex? as x).map (· + 1)

/-- The source's `is_valid_edge` test for a consecutive click pair
`(prev, curr)`: `prev` is found in the true order (first occurrence), is not
its last element, and is immediately followed by `curr`. -/
def is_valid_edge (true_order : List ℤ) (prev curr : ℤ) : Bool :=
  match firstIndex? true_order prev with
  | none => false
  | some i => decide (i < true_order.length - 1) && (true_order.get? (i + 1) == some curr)

/-- The record returned by `analyze_delaunay_lures` (the keys actually
present in the returned dict). -/
structure LureReport where
  lure_susceptibility : ℚ
  total_lure_errors : ℚ
  deriving DecidableEq, Repr

/-- Embedding of `analyze_delaunay_lures`.  `delaunay?` is the triangulation
oracle (scipy `Delaunay(coords).simplices`); `none` is the exception path. -/
def analyze_delaunay_lures (points : List Pt) (true_order : List ℤ)
    (submissions : List ℤ) (delaunay? : Option (List TriZ)) : LureReport :=
  if points.length < 3 then ⟨0, 0⟩
  else
    match delaunay? with
    | none => ⟨0, 0⟩
    | some tris =>
        if submissions.length < 2 then ⟨0, 0⟩
        else
          let dE := delaunayEdgeList tris
          let pairs := submissions.zip submissions.tail
          let mistakes := pairs.filter fun pc => ¬ is_valid_edge true_order pc.1 pc.2
          let lures := mistakes.filter fun pc => sortPairZ pc.1 pc.2 ∈ dE
          let total := mistakes.length
          let lureN := lures.length
          ⟨if total = 0 then 0 else (lureN : ℚ) / (total : ℚ), (lureN : ℚ)⟩

/-- Specification-side notion used by the claim: `(p, c)` is a next-hop edge
of the true order, i.e. some occurrence of `p` is immediately followed by
`c`. -/
def isNextHop (true_order : List ℤ) (p c : ℤ) : Prop :=
  (p, c) ∈ true_order.zip true_order.tail

instance (true_order : List ℤ) (p c : ℤ) : Decidable (isNextHop true_order p c) := by
  unfold isNextHop; infer_instance

/-- Specification-side notion used by the claim: the undirected edge
`{p, c}` is an edge of the oracle triangulation. -/
def delaunayAdjacent (tris : List TriZ) (p c : ℤ) : Prop :=
  ∃ t ∈ tris,
    (t.1, t.2.1) = (p, c) ∨ (t.2.1, t.1) = (p, c) ∨
    (t.2.1, t.2.2) = (p, c) ∨ (t.2.2, t.2.1) = (p, c) ∨
    (t.2.2, t.1) = (p, c) ∨ (t.1, t.2.2) = (p, c)

instance (tris : List TriZ) (p c : ℤ) : Decidable (delaunayAdjacent tris p c) := by
  unfold delaunayAdjacent; infer_instance

theorem firstIndex?_spec (l : List ℤ) (x : ℤ) (i : ℕ) (h : firstIndex? l x = some i) :
    l.get? i = some x := by
  induction l generalizing i with
  | nil => simp [firstIndex?] at h
  | cons a as ih =>
      by_cases hax : a = x
      · simp [firstIndex?, hax] at h
        subst hax
        simp [← h]
      · simp [firstIndex?, hax] at h
        obtain ⟨j, hj, rfl⟩ := h
        simpa using ih j hj

theorem firstIndex?_of_get :
    ∀ (l : List ℤ) (x : ℤ) (k : ℕ), l.Nodup → l.get? k = some x →
      firstIndex? l x = some k := by
  intro l
  induction l with
  | nil => intro x k _ h; simp at h
  | cons a as ih =>
      intro x k hnd h
      cases k with
      | zero =>
          simp at h
          simp [firstIndex?, h]
      | succ k =>
          simp only [List.get?_cons_succ] at h
          have hmem : x ∈ as := List.get?_mem h
          have hax : a ≠ x := by
            rintro rfl
            exact (List.nodup_cons.mp hnd).1 hmem
          rw [firstIndex?, if_neg hax, ih x k (List.nodup_cons.mp hnd).2 h]
          rfl

/-- Under a duplicate-free true order (a visiting order of polygon
vertices), the source's first-occurrence check coincides with the
specification's next-hop relation. -/
theorem is_valid_edge_iff (true_order : List ℤ) (p c : ℤ) (hnd : true_order.Nodup) :
    is_valid_edge true_order p c = true ↔ isNextHop true_order p c := by
  constructor
  · intro h
    unfold is_valid_edge at h
    rcases hf : firstIndex? true_order p with _ | i
    · rw [hf] at h; simp at h
    · rw [hf] at h
      simp only [Bool.and_eq_true, decide_eq_true_eq, beq_iff_eq] at h
      obtain ⟨hi, hc⟩ := h
      have hp := firstIndex?_spec _ _ _ hf
      unfold isNextHop
      rw [List.mem_iff_get?]
      refine ⟨i, (List.get?_zip_eq_some _ _ _ _).mpr ⟨hp, ?_⟩⟩
      cases ht : true_order with
      | nil => simp [ht] at hp
      | cons a as =>
          simp only [List.tail_cons]
          rw [ht] at hc
          simpa using hc
  · intro h
    unfold isNextHop at h
    rw [List.mem_iff_get?] at h
    obtain ⟨k, hk⟩ := h
    rw [List.get?_zip_eq_some] at hk
    obtain ⟨hpk, hck⟩ := hk
    have hclen : k + 1 < true_order.length := by
      have h1 : k < true_order.tail.length := by
        obtain ⟨h1, _⟩ := List.get?_eq_some.mp hck
        exact h1
      cases ht : true_order with
      | nil => rw [ht] at hck; simp at hck
      | cons a as =>
          rw [ht] at h1
          simp only [List.tail_cons, List.length_cons] at h1 ⊢
          omega
    have hget : true_order.get? (k + 1) = some c := by
      cases ht : true_order with
      | nil => rw [ht] at hck; simp at hck
      | cons a as =>
          rw [ht] at hck
          simpa using hck
    unfold is_valid_edge
    rw [firstIndex?_of_get _ _ _ hnd hpk]
    simp only [Bool.and_eq_true, decide_eq_true_eq, beq_iff_eq]
    exact ⟨by omega, hget⟩

theorem sortPairZ_eq_iff (u v p c : ℤ) :
    sortPairZ u v = sortPairZ p c ↔ (u = p ∧ v = c) ∨ (u = c ∧ v = p) := by
  unfold sortPairZ
  split_ifs <;> simp only [Prod.mk.injEq] <;> omega

theorem mem_delaunayEdgeList_iff (tris : List TriZ) (p c : ℤ) :
    (sortPairZ p c ∈ delaunayEdgeList tris) ↔ delaunayAdjacent tris p c := by
  unfold delaunayEdgeList delaunayAdjacent
  rw [List.mem_flatMap]
  refine exists_congr fun t => and_congr_right fun _ => ?_
  simp only [simplexEdges, List.mem_cons, List.not_mem_nil, or_false,
    sortPairZ_eq_iff, Prod.mk.injEq]
  omega

/-- C5: for ≥3 points, a successful triangulation and ≥2 clicks,
`analyze_delaunay_lures` counts as mistakes exactly the consecutive click
pairs that are not next-hop edges of a duplicate-free true order, counts as
lures exactly the mistakes whose undirected edge is in the triangulation,
and reports lures/mistakes (0 when there is no mistake). -/
theorem c5_lure_analysis (points : List Pt) (true_order submissions : List ℤ)
    (tris : List TriZ) (h3 : 3 ≤ points.length) (h2 : 2 ≤ submissions.length)
    (hnd : true_order.Nodup) :
    analyze_delaunay_lures points true_order submissions (some tris) =
      { lure_susceptibility :=
          if ((submissions.zip submissions.tail).filter fun pc =>
                ¬ isNextHop true_order pc.1 pc.2).length = 0 then 0
          else (((submissions.zip submissions.tail).filter fun pc =>
                  ¬ isNextHop true_order pc.1 pc.2 ∧
                    delaunayAdjacent tris pc.1 pc.2).length : ℚ) /
            (((submissions.zip submissions.tail).filter fun pc =>
                  ¬ isNextHop true_order pc.1 pc.2).length : ℚ),
        total_lure_errors :=
          (((submissions.zip submissions.tail).filter fun pc =>
              ¬ isNextHop true_order pc.1 pc.2 ∧
                delaunayAdjacent tris pc.1 pc.2).length : ℚ) } := by
  unfold analyze_delaunay_lures
  rw [if_neg (by omega)]
  simp only
  rw [if_neg (by omega)]
  have hfilters :
      ((submissions.zip submissions.tail).filter fun pc =>
          ¬ is_valid_edge true_order pc.1 pc.2) =
        ((submissions.zip submissions.tail).filter fun pc =>
          decide (¬ isNextHop true_order pc.1 pc.2)) := by
    apply List.filter_congr
    intro pc _
    by_cases hn : isNextHop true_order pc.1 pc.2
    · simp [(is_valid_edge_iff _ pc.1 pc.2 hnd).mpr hn, hn]
    · have hf : is_valid_edge true_order pc.1 pc.2 = false := by
        rcases h' : is_valid_edge true_order pc.1 pc.2 with _ | _
        · rfl
        · exact absurd ((is_valid_edge_iff _ _ _ hnd).mp h') hn
      simp [hf, hn]
  have hlurefilter :
      (((submissions.zip submissions.tail).filter fun pc =>
          decide (¬ isNextHop true_order pc.1 pc.2)).filter fun pc =>
            sortPairZ pc.1 pc.2 ∈ delaunayEdgeList tris) =
        ((submissions.zip submissions.tail).filter fun pc =>
          decide (¬ isNextHop true_order pc.1 pc.2 ∧
            delaunayAdjacent tris pc.1 pc.2)) := by
    rw [List.filter_filter]
    apply List.filter_congr
    intro pc _
    rcases hnh : decide (¬ isNextHop true_order pc.1 pc.2) with _ | _
    · simp at hnh
      simp [hnh]
    · simp at hnh
      by_cases hadj : delaunayAdjacent tris pc.1 pc.2
      · have hmem := (mem_delaunayEdgeList_iff tris pc.1 pc.2).mpr hadj
        simp [hnh, hadj, hmem]
      · have hmem : sortPairZ pc.1 pc.2 ∉ delaunayEdgeList tris :=
          fun hm => hadj ((mem_delaunayEdgeList_iff tris pc.1 pc.2).mp hm)
        simp [hnh, hadj, hmem]
  rw [hfilters, hlurefilter]

/-- C5 (witness): a 4-point square, true order `[0,1,2]`, triangulation
`{(0,1,2),(0,2,3)}`; the user clicks `0` then the Delaunay-adjacent but
wrong vertex `2`: one mistake, one lure, susceptibility 1. -/
theorem c5_witness :
    analyze_delaunay_lures [(0, 0), (1, 0), (1, 1), (0, 1)] [0, 1, 2] [0, 2]
      (some [(0, 1, 2), (0, 2, 3)]) =
      { lure_susceptibility := 1, total_lure_errors := 1 } := by
  rw [c5_lure_analysis _ _ _ _ (by decide) (by decide) (by decide)]
  have h1 : (([0, 2] : List ℤ).zip ([0, 2] : List ℤ).tail).filter
      (fun pc => ¬ isNextHop [0, 1, 2] pc.1 pc.2) = [(0, 2)] := by decide
  have h2 : (([0, 2] : List ℤ).zip ([0, 2] : List ℤ).tail).filter
      (fun pc => ¬ isNextHop [0, 1, 2] pc.1 pc.2 ∧
        delaunayAdjacent [(0, 1, 2), (0, 2, 3)] pc.1 pc.2) = [(0, 2)] := by decide
  rw [h1, h2]
  norm_num

/-! ## C2: alpha-shape metrics (geometry_utils.compute_alpha_metrics)

The module imports of `geometry_utils.py` (lines 10–16) bind `numpy`,
`shapely`, `scipy.spatial.distance.directed_hausdorff`, `typing`, `math` and
`random` — but NOT `scipy.spatial.Delaunay`.  For any input with at least 3
points the first statement of the `try` block, `tri = Delaunay(coords)`,
therefore raises `NameError`, which the blanket `except Exception` clause
catches, printing and returning `{'critical_alpha': 0.0, 'alpha_area': 0.0}`.
For fewer than 3 points the guard returns the same zeros.  The embedding is
therefore the constant zero record; the whole MST computation in the body is
dead code. -/

structure AlphaMetrics where
  critical_alpha : ℚ
  alpha_area : ℚ
  deriving DecidableEq, Repr

/-- Faithful embedding of `compute_alpha_metrics`: the `< 3` guard returns
zeros, and the `try` block always dies on the unbound name `Delaunay`, so the
`except` clause returns zeros as well. -/
def compute_alpha_metrics (points : List Pt) : AlphaMetrics :=
  if points.length < 3 then ⟨0, 0⟩ else ⟨0, 0⟩

/-- Modelled from the spec (the computation the dead body of
`compute_alpha_metrics` attempts, needed to exhibit the intended value):
Kruskal's algorithm over the unique (`u < v`) Delaunay edges sorted by
`(weight, u, v)`, tracking the maximum accepted edge weight.  Components are
kept as a representative-choosing function, the effect of the source's
union-find.  Weights are squared lengths; sorting by squared length is
sorting by length. -/
def kruskalMaxEdgeSq : (ℤ → ℤ) → List (ℚ × ℤ × ℤ) → ℚ → ℚ
  | _, [], best => best
  | root, (w, u, v) :: rest, best =>
      if root u = root v then kruskalMaxEdgeSq root rest best
      else
        kruskalMaxEdgeSq (fun x => if root x = root u then root v else root x)
          rest (max best w)

/-- The unique-edge list `(dist, u, v)` for `u < v` built from the simplices,
with squared distances; indices address the point list. -/
def delaunayWeightedEdges (points : List Pt) (tris : List TriZ) : List (ℚ × ℤ × ℤ) :=
  tris.flatMap fun t =>
    ([(t.1, t.2.1), (t.2.1, t.2.2), (t.2.2, t.1)].filter fun uv => uv.1 < uv.2).map
      fun uv =>
        (sqDist ((points.get? uv.1.toNat).getD (0, 0)) ((points.get? uv.2.toNat).getD (0, 0)),
          uv.1, uv.2)

/-- Lexicographic insertion sort on `(weight, u, v)`, the order of Python's
`edges.sort()` on those tuples (with squared weights; squaring preserves the
order of nonnegative lengths). -/
def insertEdge (e : ℚ × ℤ × ℤ) : List (ℚ × ℤ × ℤ) → List (ℚ × ℤ × ℤ)
  | [] => [e]
  | f :: fs =>
      if e.1 < f.1 ∨ (e.1 = f.1 ∧ (e.2.1 < f.2.1 ∨ (e.2.1 = f.2.1 ∧ e.2.2 ≤ f.2.2)))
      then e :: f :: fs
      else f :: insertEdge e fs

def sortEdges (l : List (ℚ × ℤ × ℤ)) : List (ℚ × ℤ × ℤ) := l.foldr insertEdge []

/-- Modelled from the spec: the critical alpha the body intends,
`(longest MST edge)/2`, represented by its square `(maxEdge)²/4`; since
`kruskalMaxEdgeSq` tracks squared weights, this is its value divided by 4. -/
def criticalAlphaSqSpec (points : List Pt) (tris : List TriZ) : ℚ :=
  kruskalMaxEdgeSq id (sortEdges (delaunayWeightedEdges points tris)) 0 / 4

/-- C2: the shipped `compute_alpha_metrics` returns `critical_alpha = 0` on
the 3-4-5 right triangle (indeed on every input, because `Delaunay` is an
unbound name in `geometry_utils.py`), while the documented/intended value —
half the longest MST edge over the Delaunay graph — is 5/2 there
(`(5/2)² = 25/4 ≠ 0`).  This contradicts the function's own docstring. -/
theorem c2_alpha_metrics_dead_code :
    (∀ points : List Pt, compute_alpha_metrics points = ⟨0, 0⟩) ∧
    compute_alpha_metrics [(0, 0), (4, 0), (0, 3)] = ⟨0, 0⟩ ∧
    criticalAlphaSqSpec [(0, 0), (4, 0), (0, 3)] [(0, 1, 2)] = 25 / 4 ∧
    (25 / 4 : ℚ) ≠ 0 := by
  have hE : delaunayWeightedEdges [(0, 0), (4, 0), (0, 3)] [(0, 1, 2)] =
      [(16, 0, 1), (25, 1, 2)] := by
    simp [delaunayWeightedEdges, sqDist]
    norm_num
  have hS : sortEdges [((16 : ℚ), (0 : ℤ), (1 : ℤ)), (25, 1, 2)] =
      [(16, 0, 1), (25, 1, 2)] := by
    norm_num [sortEdges, insertEdge]
  have hK : kruskalMaxEdgeSq id [((16 : ℚ), (0 : ℤ), (1 : ℤ)), (25, 1, 2)] 0 = 25 := by
    norm_num [kruskalMaxEdgeSq, max_def]
  refine ⟨fun points => ?_, by decide, ?_, by norm_num⟩
  · unfold compute_alpha_metrics
    split_ifs <;> rfl
  · unfold criticalAlphaSqSpec
    rw [hE, hS, hK]

/-! ## C4: composite multi-domain aggregation (scoring.compute_composite_score)

The function groups results by `level`, routes levels into the four domains
(1→visuospatial, 2→memory, 3→attention, 4→attention, 5→recognition,
6→visuospatial, 7→memory and visuospatial), averages `composite_score`
(`recognition_score` for level 5) within each domain, then combines: a
weighted geometric mean when ALL FOUR DOMAIN SCORES ARE POSITIVE
(`all([memory > 0, ...])`), otherwise the arithmetic mean of the positive
domain scores only.  The float weights 0.25/0.25/0.30/0.20 are idealised as
the exact rationals they denote. -/

/-- One per-task result record; `none` models a missing dict key
(`result.get(key, default)`). -/
structure LevelResult where
  level : ℤ
  composite_score : Option ℚ
  recognition_score : Option ℚ
  deriving DecidableEq, Repr

/-- `s.get('composite_score', 0.0)`. -/
def getCompositeScore (r : LevelResult) : ℚ := r.composite_score.getD 0

/-- `s.get('recognition_score', s.get('composite_score', 0.0))`. -/
def getRecognitionScore (r : LevelResult) : ℚ :=
  r.recognition_score.getD (getCompositeScore r)

/-- `np.mean` of a list (callers guard the empty case). -/
def qMean (l : List ℚ) : ℚ := l.sum / l.length

/-- The results for one level, in input order (the `levels` dict groups by
level preserving order). -/
def resultsForLevel (rs : List LevelResult) (n : ℤ) : List LevelResult :=
  rs.filter fun r => decide (r.level = n)

def memoryLevels (rs : List LevelResult) : List LevelResult :=
  resultsForLevel rs 2 ++ resultsForLevel rs 7

def attentionLevels (rs : List LevelResult) : List LevelResult :=
  resultsForLevel rs 3 ++ resultsForLevel rs 4

def visuospatialLevels (rs : List LevelResult) : List LevelResult :=
  resultsForLevel rs 1 ++ resultsForLevel rs 6 ++ resultsForLevel rs 7

def recognitionLevels (rs : List LevelResult) : List LevelResult :=
  resultsForLevel rs 5

def compute_memory_score (ls : List LevelResult) : ℚ :=
  if ls = [] then 0 else qMean (ls.map getCompositeScore)

def compute_attention_score (ls : List LevelResult) : ℚ :=
  if ls = [] then 0 else qMean (ls.map getCompositeScore)

def compute_visuospatial_score (ls : List LevelResult) : ℚ :=
  if ls = [] then 0 else qMean (ls.map getCompositeScore)

def compute_recognition_score (ls : List LevelResult) : ℚ :=
  if ls = [] then 0 else qMean (ls.map getRecognitionScore)

def ScoreWeights.MEMORY : ℝ := 0.25
def ScoreWeights.ATTENTION : ℝ := 0.25
def ScoreWeights.VISUOSPATIAL : ℝ := 0.30
def ScoreWeights.RECOGNITION : ℝ := 0.20

/-- The weighted geometric mean formula of the geometric branch (also the
value the claim asserts for the all-domains-present case). -/
noncomputable def geoMeanWeighted (m a v r : ℝ) : ℝ :=
  (m ^ ScoreWeights.MEMORY * a ^ ScoreWeights.ATTENTION *
      v ^ ScoreWeights.VISUOSPATIAL * r ^ ScoreWeights.RECOGNITION) ^
    ((1 : ℝ) / (ScoreWeights.MEMORY + ScoreWeights.ATTENTION +
      ScoreWeights.VISUOSPATIAL + ScoreWeights.RECOGNITION))

structure CompositeReport where
  composite_score : ℝ
  memory : ℚ
  attention : ℚ
  visuospatial : ℚ
  recognition : ℚ

/-- Embedding of `compute_composite_score` (composite plus the
`cognitive_profile` domain scores; `domain_breakdown` repeats them). -/
noncomputable def compute_composite_score (rs : List LevelResult) : CompositeReport :=
  let m := compute_memory_score (memoryLevels rs)
  let a := compute_attention_score (attentionLevels rs)
  let v := compute_visuospatial_score (visuospatialLevels rs)
  let r := compute_recognition_score (recognitionLevels rs)
  let comp : ℝ :=
    if 0 < m ∧ 0 < a ∧ 0 < v ∧ 0 < r then
      geoMeanWeighted (m : ℝ) (a : ℝ) (v : ℝ) (r : ℝ)
    else
      let avail := [m, a, v, r].filter fun s => decide (0 < s)
      if avail = [] then 0 else ((qMean avail : ℚ) : ℝ)
  ⟨comp, m, a, v, r⟩

/-- Input refuting C4 as stated: all four domains have a contributing result,
but the recognition result scored 0. -/
def c4Input : List LevelResult :=
  [⟨2, some 50, none⟩, ⟨3, some 50, none⟩, ⟨1, some 50, none⟩, ⟨5, some 0, some 0⟩]

theorem c4Input_memory : compute_memory_score (memoryLevels c4Input) = 50 := by
  norm_num [compute_memory_score, memoryLevels, resultsForLevel, c4Input, qMean,
    getCompositeScore]

theorem c4Input_attention : compute_attention_score (attentionLevels c4Input) = 50 := by
  norm_num [compute_attention_score, attentionLevels, resultsForLevel, c4Input, qMean,
    getCompositeScore]

theorem c4Input_visuospatial :
    compute_visuospatial_score (visuospatialLevels c4Input) = 50 := by
  norm_num [compute_visuospatial_score, visuospatialLevels, resultsForLevel, c4Input,
    qMean, getCompositeScore]

theorem c4Input_recognition :
    compute_recognition_score (recognitionLevels c4Input) = 0 := by
  norm_num [compute_recognition_score, recognitionLevels, resultsForLevel, c4Input,
    qMean, getRecognitionScore, getCompositeScore]

/-- C4 (counterexample): on `c4Input` every domain has at least one
contributing score, yet the composite is 50 — the arithmetic mean of the
three positive domain scores, with the zero-scored recognition domain
dropped — not the weighted geometric mean of the four domain scores, which
is 0.  The code's branch condition is "all domain scores positive", not
"all domains nonempty". -/
theorem c4_counterexample :
    memoryLevels c4Input ≠ [] ∧ attentionLevels c4Input ≠ [] ∧
    visuospatialLevels c4Input ≠ [] ∧ recognitionLevels c4Input ≠ [] ∧
    (compute_composite_score c4Input).composite_score = 50 ∧
    geoMeanWeighted 50 50 50 0 = 0 ∧ (50 : ℝ) ≠ 0 := by
  refine ⟨by decide, by decide, by decide, by decide, ?_, ?_, by norm_num⟩
  · unfold compute_composite_score
    dsimp only
    rw [c4Input_memory, c4Input_attention, c4Input_visuospatial, c4Input_recognition]
    rw [if_neg (by norm_num)]
    have hfil : ([(50 : ℚ), 50, 50, 0].filter fun s => decide (0 < s)) = [50, 50, 50] := by
      norm_num
    rw [hfil]
    rw [if_neg (by simp)]
    norm_num [qMean]
  · unfold geoMeanWeighted ScoreWeights.MEMORY ScoreWeights.ATTENTION
      ScoreWeights.VISUOSPATIAL ScoreWeights.RECOGNITION
    rw [Real.zero_rpow (by norm_num), mul_zero]
    rw [Real.zero_rpow (by norm_num)]

/-- C4 (amended): the composite routes levels into the four domains and
averages them; it is the weighted geometric mean exactly when all four
domain SCORES are positive, and otherwise the arithmetic mean of only the
positive domain scores (a domain with data but score 0 is dropped, see
`c4_counterexample`).  In particular, with results in only the two domains
memory (level 2) and attention (level 3), both scoring positive, the
composite is the arithmetic mean of those two domain scores. -/
theorem c4_composite_branching (rs : List LevelResult) :
    (compute_composite_score rs).memory = compute_memory_score (memoryLevels rs) ∧
    (compute_composite_score rs).attention = compute_attention_score (attentionLevels rs) ∧
    (compute_composite_score rs).visuospatial =
      compute_visuospatial_score (visuospatialLevels rs) ∧
    (compute_composite_score rs).recognition =
      compute_recognition_score (recognitionLevels rs) ∧
    ((0 < (compute_composite_score rs).memory ∧
        0 < (compute_composite_score rs).attention ∧
        0 < (compute_composite_score rs).visuospatial ∧
        0 < (compute_composite_score rs).recognition) →
      (compute_composite_score rs).composite_score =
        geoMeanWeighted ((compute_composite_score rs).memory : ℝ)
          ((compute_composite_score rs).attention : ℝ)
          ((compute_composite_score rs).visuospatial : ℝ)
          ((compute_composite_score rs).recognition : ℝ)) ∧
    (¬ (0 < (compute_composite_score rs).memory ∧
        0 < (compute_composite_score rs).attention ∧
        0 < (compute_composite_score rs).visuospatial ∧
        0 < (compute_composite_score rs).recognition) →
      (compute_composite_score rs).composite_score =
        (if ([(compute_composite_score rs).memory, (compute_composite_score rs).attention,
              (compute_composite_score rs).visuospatial,
              (compute_composite_score rs).recognition].filter fun s => decide (0 < s)) = []
         then (0 : ℝ)
         else ((qMean ([(compute_composite_score rs).memory,
            (compute_composite_score rs).attention,
            (compute_composite_score rs).visuospatial,
            (compute_composite_score rs).recognition].filter fun s => decide (0 < s)) : ℚ) : ℝ))) ∧
    ((∀ x ∈ rs, x.level = 2 ∨ x.level = 3) →
      0 < (compute_composite_score rs).memory →
      0 < (compute_composite_score rs).attention →
      (compute_composite_score rs).composite_score =
        ((((compute_composite_score rs).memory + (compute_composite_score rs).attention) / 2 : ℚ) : ℝ)) := by
  refine ⟨rfl, rfl, rfl, rfl, ?_, ?_, ?_⟩
  · intro h
    have h' : 0 < compute_memory_score (memoryLevels rs) ∧
        0 < compute_attention_score (attentionLevels rs) ∧
        0 < compute_visuospatial_score (visuospatialLevels rs) ∧
        0 < compute_recognition_score (recognitionLevels rs) := h
    show (if 0 < compute_memory_score (memoryLevels rs) ∧
        0 < compute_attention_score (attentionLevels rs) ∧
        0 < compute_visuospatial_score (visuospatialLevels rs) ∧
        0 < compute_recognition_score (recognitionLevels rs) then _ else _) = _
    rw [if_pos h']
    exact rfl
  · intro h
    have h' : ¬ (0 < compute_memory_score (memoryLevels rs) ∧
        0 < compute_attention_score (attentionLevels rs) ∧
        0 < compute_visuospatial_score (visuospatialLevels rs) ∧
        0 < compute_recognition_score (recognitionLevels rs)) := h
    show (if 0 < compute_memory_score (memoryLevels rs) ∧
        0 < compute_attention_score (attentionLevels rs) ∧
        0 < compute_visuospatial_score (visuospatialLevels rs) ∧
        0 < compute_recognition_score (recognitionLevels rs) then _ else _) = _
    rw [if_neg h']
    exact rfl
  · intro hlev hm ha
    have hm' : 0 < compute_memory_score (memoryLevels rs) := hm
    have ha' : 0 < compute_attention_score (attentionLevels rs) := ha
    have hfil1 : resultsForLevel rs 1 = [] := by
      refine List.filter_eq_nil_iff.mpr fun x hx => ?_
      rcases hlev x hx with h | h <;> simp [h]
    have hfil6 : resultsForLevel rs 6 = [] := by
      refine List.filter_eq_nil_iff.mpr fun x hx => ?_
      rcases hlev x hx with h | h <;> simp [h]
    have hfil7 : resultsForLevel rs 7 = [] := by
      refine List.filter_eq_nil_iff.mpr fun x hx => ?_
      rcases hlev x hx with h | h <;> simp [h]
    have hfil5 : resultsForLevel rs 5 = [] := by
      refine List.filter_eq_nil_iff.mpr fun x hx => ?_
      rcases hlev x hx with h | h <;> simp [h]
    have hv : compute_visuospatial_score (visuospatialLevels rs) = 0 := by
      simp [compute_visuospatial_score, visuospatialLevels, hfil1, hfil6, hfil7]
    have hr : compute_recognition_score (recognitionLevels rs) = 0 := by
      simp [compute_recognition_score, recognitionLevels, hfil5]
    show (if 0 < compute_memory_score (memoryLevels rs) ∧
        0 < compute_attention_score (attentionLevels rs) ∧
        0 < compute_visuospatial_score (visuospatialLevels rs) ∧
        0 < compute_recognition_score (recognitionLevels rs) then _ else _) = _
    rw [if_neg (by rw [hv]; simp)]
    have hfil : ([compute_memory_score (memoryLevels rs),
        compute_attention_score (attentionLevels rs),
        compute_visuospatial_score (visuospatialLevels rs),
        compute_recognition_score (recognitionLevels rs)].filter fun s => decide (0 < s)) =
          [compute_memory_score (memoryLevels rs),
            compute_attention_score (attentionLevels rs)] := by
      rw [hv, hr]
      simp [List.filter_cons, hm', ha']
    rw [hfil]
    rw [if_neg (by simp)]
    show ((qMean [compute_memory_score (memoryLevels rs),
      compute_attention_score (attentionLevels rs)] : ℚ) : ℝ) =
        (((compute_composite_score rs).memory + (compute_composite_score rs).attention) / 2 : ℚ)
    have hmemf : (compute_composite_score rs).memory =
        compute_memory_score (memoryLevels rs) := rfl
    have hattf : (compute_composite_score rs).attention =
        compute_attention_score (attentionLevels rs) := rfl
    rw [hmemf, hattf]
    norm_cast
    simp [qMean]

/-- All four domains populated with positive scores. -/
def c4AllDomains : List LevelResult :=
  [⟨2, some 50, none⟩, ⟨3, some 50, none⟩, ⟨1, some 50, none⟩, ⟨5, some 50, some 50⟩]

/-- Only memory (level 2) and attention (level 3) populated. -/
def c4TwoDomains : List LevelResult := [⟨2, some 40, none⟩, ⟨3, some 60, none⟩]

/-- C4 (witness): with all four domains positive the composite is the
weighted geometric mean; with only two domains (memory 40, attention 60) it
is their arithmetic mean 50. -/
theorem c4_witness :
    (compute_composite_score c4AllDomains).composite_score = geoMeanWeighted 50 50 50 50 ∧
    (compute_composite_score c4TwoDomains).composite_score = 50 := by
  have em1 : (compute_composite_score c4AllDomains).memory =
      compute_memory_score (memoryLevels c4AllDomains) := rfl
  have ea1 : (compute_composite_score c4AllDomains).attention =
      compute_attention_score (attentionLevels c4AllDomains) := rfl
  have ev1 : (compute_composite_score c4AllDomains).visuospatial =
      compute_visuospatial_score (visuospatialLevels c4AllDomains) := rfl
  have er1 : (compute_composite_score c4AllDomains).recognition =
      compute_recognition_score (recognitionLevels c4AllDomains) := rfl
  have m1 : compute_memory_score (memoryLevels c4AllDomains) = 50 := by
    norm_num [compute_memory_score, memoryLevels, resultsForLevel, c4AllDomains, qMean,
      getCompositeScore]
  have a1 : compute_attention_score (attentionLevels c4AllDomains) = 50 := by
    norm_num [compute_attention_score, attentionLevels, resultsForLevel, c4AllDomains,
      qMean, getCompositeScore]
  have v1 : compute_visuospatial_score (visuospatialLevels c4AllDomains) = 50 := by
    norm_num [compute_visuospatial_score, visuospatialLevels, resultsForLevel,
      c4AllDomains, qMean, getCompositeScore]
  have r1 : compute_recognition_score (recognitionLevels c4AllDomains) = 50 := by
    norm_num [compute_recognition_score, recognitionLevels, resultsForLevel,
      c4AllDomains, qMean, getRecognitionScore, getCompositeScore]
  have m2 : compute_memory_score (memoryLevels c4TwoDomains) = 40 := by
    norm_num [compute_memory_score, memoryLevels, resultsForLevel, c4TwoDomains, qMean,
      getCompositeScore]
  have a2 : compute_attention_score (attentionLevels c4TwoDomains) = 60 := by
    norm_num [compute_attention_score, attentionLevels, resultsForLevel, c4TwoDomains,
      qMean, getCompositeScore]
  constructor
  · have hgeo := (c4_composite_branching c4AllDomains).2.2.2.2.1
    rw [em1, ea1, ev1, er1, m1, a1, v1, r1] at hgeo
    have := hgeo (by norm_num)
    rw [this]
    norm_num
  · have htwo := (c4_composite_branching c4TwoDomains).2.2.2.2.2.2
    have hm : 0 < (compute_composite_score c4TwoDomains).memory := by
      show 0 < compute_memory_score (memoryLevels c4TwoDomains)
      rw [m2]; norm_num
    have ha : 0 < (compute_composite_score c4TwoDomains).attention := by
      show 0 < compute_attention_score (attentionLevels c4TwoDomains)
      rw [a2]; norm_num
    have hlev : ∀ x ∈ c4TwoDomains, x.level = 2 ∨ x.level = 3 := by decide
    have := htwo hlev hm ha
    rw [this]
    show (((compute_memory_score (memoryLevels c4TwoDomains) +
      compute_attention_score (attentionLevels c4TwoDomains)) / 2 : ℚ) : ℝ) = 50
    rw [m2, a2]
    norm_num

/-! ## C10: level-5 recognition scoring (scoring.score_level_5_recognition)

Reaction time and confidence are integers (milliseconds, 1–5 rating);
`math.exp` forces a real-valued model.  `time_limit_ms` is accepted (source
default 60000) but never read by the body. -/

structure RecognitionScore where
  correctness : ℝ
  time_score : ℝ
  confidence_score : ℝ
  recognition_score : ℝ

/-- Embedding of `score_level_5_recognition`. -/
noncomputable def score_level_5_recognition (correct : Bool) (reaction_time_ms : ℤ)
    (confidence_rating : ℤ) (time_limit_ms : ℤ) : RecognitionScore :=
  let correctness : ℝ := if correct then 1 else 0
  let expected_time : ℝ := 15000
  let tratio : ℝ := min ((reaction_time_ms : ℝ) / expected_time) 3
  let tscore : ℝ := max 0 (min 1 (Real.exp (-(0.5) * (tratio - 1))))
  let cn : ℝ := (confidence_rating : ℝ) / 5
  let cscore : ℝ := max 0 (min 1 (if correct then 0.5 + 0.5 * cn else 0.5 - 0.5 * cn))
  let recognition : ℝ :=
    if correct then (0.6 * correctness + 0.25 * tscore + 0.15 * cscore) * 100 else 0
  ⟨correctness, tscore, cscore, recognition⟩

/-- C10: whatever the reaction time and confidence rating (and the unused
time limit), an incorrect answer scores `recognition_score = 0`; the time and
confidence component scores are still computed and clamped into [0, 1]. -/
theorem c10_incorrect_recognition_zero (reaction_time_ms confidence_rating time_limit_ms : ℤ) :
    (score_level_5_recognition false reaction_time_ms confidence_rating
      time_limit_ms).recognition_score = 0 ∧
    0 ≤ (score_level_5_recognition false reaction_time_ms confidence_rating
      time_limit_ms).time_score ∧
    (score_level_5_recognition false reaction_time_ms confidence_rating
      time_limit_ms).time_score ≤ 1 ∧
    0 ≤ (score_level_5_recognition false reaction_time_ms confidence_rating
      time_limit_ms).confidence_score ∧
    (score_level_5_recognition false reaction_time_ms confidence_rating
      time_limit_ms).confidence_score ≤ 1 := by
  unfold score_level_5_recognition
  dsimp only
  refine ⟨rfl, le_max_left 0 _, ?_, le_max_left 0 _, ?_⟩
  · exact max_le (by norm_num) (min_le_left 1 _)
  · exact max_le (by norm_num) (min_le_left 1 _)

/-! ## C9: path tortuosity (geometry_utils.compute_path_tortuosity)

Real-valued model: segment lengths are genuine square roots, the branch
conditions stay exact (the float comparison `straight_distance < 1e-9` is the
rational comparison of squares, monotone for nonnegatives; `1e-9` is
idealised as 10⁻⁹). -/

/-- Euclidean distance between two points, `math.sqrt(dx**2 + dy**2)`. -/
noncomputable def ptDist (p q : Pt) : ℝ := Real.sqrt ((sqDist p q : ℚ) : ℝ)

/-- The `total_length` loop: sum of the distances of consecutive points. -/
noncomputable def totalPathLength (p : List Pt) : ℝ :=
  ((p.zip p.tail).map fun ab => ptDist ab.1 ab.2).sum

/-- Squared straight-line distance between the first and last point. -/
def straightSq : List Pt → ℚ
  | [] => 0
  | a :: as => sqDist a ((a :: as).getLast (List.cons_ne_nil a as))

/-- Embedding of `compute_path_tortuosity`. -/
noncomputable def compute_path_tortuosity (path_points : List Pt) : ℝ :=
  if path_points.length < 2 then 1
  else if straightSq path_points < (1 / 10 ^ 9 : ℚ) ^ 2 then 1
  else totalPathLength path_points / Real.sqrt ((straightSq path_points : ℚ) : ℝ)

/-- The coordinates of a point as a vector of the Euclidean plane. -/
noncomputable def toE (q : Pt) : EuclideanSpace ℝ (Fin 2) := ![(q.1 : ℝ), (q.2 : ℝ)]

theorem dist_toE (a b : Pt) : dist (toE a) (toE b) = ptDist a b := by
  rw [EuclideanSpace.dist_eq]
  unfold ptDist
  congr 1
  rw [Fin.sum_univ_two]
  unfold toE sqDist
  simp only [Matrix.cons_val_zero, Matrix.cons_val_one, Matrix.head_cons, Real.dist_eq,
    sq_abs]
  push_cast
  ring

theorem ptDist_self (a : Pt) : ptDist a a = 0 := by
  unfold ptDist
  rw [sqDist_self]
  simp

theorem ptDist_triangle (a b c : Pt) : ptDist a c ≤ ptDist a b + ptDist b c := by
  rw [← dist_toE, ← dist_toE, ← dist_toE]
  exact dist_triangle _ _ _

theorem totalPathLength_cons_cons (a b : Pt) (rest : List Pt) :
    totalPathLength (a :: b :: rest) = ptDist a b + totalPathLength (b :: rest) := by
  simp [totalPathLength]

/-- A polyline is at least as long as the straight line between its
endpoints (chained triangle inequality). -/
theorem ptDist_head_getLast_le (rest : List Pt) :
    ∀ a : Pt, ptDist a ((a :: rest).getLast (List.cons_ne_nil a rest)) ≤
      totalPathLength (a :: rest) := by
  induction rest with
  | nil =>
      intro a
      simp [totalPathLength, List.getLast, ptDist_self a]
  | cons b rest ih =>
      intro a
      rw [List.getLast_cons (List.cons_ne_nil b rest), totalPathLength_cons_cons]
      calc ptDist a ((b :: rest).getLast (List.cons_ne_nil b rest)) ≤
            ptDist a b + ptDist b ((b :: rest).getLast (List.cons_ne_nil b rest)) :=
          ptDist_triangle _ _ _
        _ ≤ ptDist a b + totalPathLength (b :: rest) := by
            have := ih b
            linarith

/-- C9: `compute_path_tortuosity` returns 1 for short or degenerate paths,
and otherwise the ratio of the polyline length to the straight endpoint
distance, which is at least 1; a 2-point path with non-degenerate separation
scores exactly 1. -/
theorem c9_tortuosity :
    (∀ p : List Pt, p.length < 2 → compute_path_tortuosity p = 1) ∧
    (∀ p : List Pt, straightSq p < (1 / 10 ^ 9 : ℚ) ^ 2 → compute_path_tortuosity p = 1) ∧
    (∀ p : List Pt, 2 ≤ p.length → (1 / 10 ^ 9 : ℚ) ^ 2 ≤ straightSq p →
      compute_path_tortuosity p =
        totalPathLength p / Real.sqrt ((straightSq p : ℚ) : ℝ) ∧
      1 ≤ compute_path_tortuosity p) ∧
    (∀ a b : Pt, (1 / 10 ^ 9 : ℚ) ^ 2 ≤ sqDist a b →
      compute_path_tortuosity [a, b] = 1) := by
  have key : ∀ p : List Pt, 2 ≤ p.length → (1 / 10 ^ 9 : ℚ) ^ 2 ≤ straightSq p →
      compute_path_tortuosity p =
        totalPathLength p / Real.sqrt ((straightSq p : ℚ) : ℝ) ∧
      1 ≤ compute_path_tortuosity p := by
    intro p h2 hs
    unfold compute_path_tortuosity
    rw [if_neg (by omega), if_neg (not_lt.mpr hs)]
    refine ⟨rfl, ?_⟩
    have hpos : (0 : ℚ) < straightSq p := lt_of_lt_of_le (by positivity) hs
    have hsq : (0 : ℝ) < Real.sqrt ((straightSq p : ℚ) : ℝ) :=
      Real.sqrt_pos.mpr (by exact_mod_cast hpos)
    rw [le_div_iff₀ hsq, one_mul]
    obtain ⟨a, rest, rfl⟩ : ∃ a rest, p = a :: rest := by
      cases p with
      | nil => simp at h2
      | cons a rest => exact ⟨a, rest, rfl⟩
    have hstraight : Real.sqrt ((straightSq (a :: rest) : ℚ) : ℝ) =
        ptDist a ((a :: rest).getLast (List.cons_ne_nil a rest)) := rfl
    rw [hstraight]
    exact ptDist_head_getLast_le rest a
  refine ⟨?_, ?_, key, ?_⟩
  · intro p hp
    unfold compute_path_tortuosity
    rw [if_pos hp]
  · intro p hp
    unfold compute_path_tortuosity
    rcases em (p.length < 2) with h | h
    · rw [if_pos h]
    · rw [if_neg h, if_pos hp]
  · intro a b hab
    have hs : straightSq [a, b] = sqDist a b := rfl
    have h := key [a, b] (by simp) (by rw [hs]; exact hab)
    rw [h.1]
    have htot : totalPathLength [a, b] = ptDist a b := by
      simp [totalPathLength]
    have hstraight : Real.sqrt ((straightSq [a, b] : ℚ) : ℝ) = ptDist a b := rfl
    rw [htot, hstraight]
    have hpos : (0 : ℚ) < sqDist a b := lt_of_lt_of_le (by positivity) hab
    have : (0 : ℝ) < ptDist a b := by
      unfold ptDist
      exact Real.sqrt_pos.mpr (by exact_mod_cast hpos)
    exact div_self (ne_of_gt this)

/-- C9 (witness): the unit-length straight 2-point path has tortuosity
exactly 1; short paths score 1; a degenerate path scores 1; and the ratio
form is at least 1 on a concrete 3-point path. -/
theorem c9_witness :
    compute_path_tortuosity [(0, 0), (1, 0)] = 1 ∧
    compute_path_tortuosity [(0, 0)] = 1 ∧
    compute_path_tortuosity [(0, 0), (0, 0)] = 1 ∧
    1 ≤ compute_path_tortuosity [(0, 0), (1, 1), (2, 0)] := by
  refine ⟨c9_tortuosity.2.2.2 (0, 0) (1, 0) (by norm_num [sqDist]),
    c9_tortuosity.1 [(0, 0)] (by norm_num),
    c9_tortuosity.2.1 [(0, 0), (0, 0)] (by norm_num [straightSq, sqDist]),
    (c9_tortuosity.2.2.1 [(0, 0), (1, 1), (2, 0)] (by norm_num)
      (by norm_num [straightSq, sqDist])).2⟩

/-! ## C7: totality and sentinels of the shape metrics
(geometry_utils.compute_hausdorff_distance, compute_path_tortuosity,
compute_angular_deviation)

`compute_angular_deviation` has NO try/except: after the `< 2` guards it
indexes `points[idx]` for every index appearing in the compared prefix of
the two sequences, so an out-of-range index (in particular any index against
an empty point list) raises `IndexError`.  The embedding returns `Option`:
`none` is a raised exception. -/

/-- Python list indexing `l[i]` with negative-index semantics; `none` models
`IndexError`. -/
def pyGet (l : List Pt) (i : ℤ) : Option Pt :=
  if 0 ≤ i then l.get? i.toNat
  else if (-i).toNat ≤ l.length then l.get? (l.length - (-i).toNat) else none

/-- `math.atan2 y x`, the argument of the complex number `x + y·i`. -/
noncomputable def atan2 (y x : ℝ) : ℝ := Complex.arg ⟨x, y⟩

open Classical in
/-- One iteration of the deviation loop: look the four vertices up (either
lookup can raise), then the absolute angle difference folded into `[0, π]`
and converted to degrees. -/
noncomputable def angularDevOf (points : List Pt) (pp : (ℤ × ℤ) × (ℤ × ℤ)) : Option ℝ :=
  match pyGet points pp.1.1, pyGet points pp.1.2,
      pyGet points pp.2.1, pyGet points pp.2.2 with
  | some pu1, some pu2, some pt1, some pt2 =>
      let angle_user := atan2 ((pu2.2 : ℝ) - (pu1.2 : ℝ)) ((pu2.1 : ℝ) - (pu1.1 : ℝ))
      let angle_true := atan2 ((pt2.2 : ℝ) - (pt1.2 : ℝ)) ((pt2.1 : ℝ) - (pt1.1 : ℝ))
      let diff := |angle_user - angle_true|
      let folded := if Real.pi < diff then 2 * Real.pi - diff else diff
      some (folded * 180 / Real.pi)
  | _, _, _, _ => none

/-- Sequential `Option`-collecting map: the loop body aborting at the first
raised lookup. -/
def optionMapList {α β : Type} (f : α → Option β) : List α → Option (List β)
  | [] => some []
  | x :: xs =>
      match f x, optionMapList f xs with
      | some y, some ys => some (y :: ys)
      | _, _ => none

/-- Embedding of `compute_angular_deviation`: the `< 2` sentinel, then the
loop over the index-aligned segment pairs (`range(max_len)` walks exactly
the zip of the two consecutive-pair lists), then `np.mean` in degrees. -/
noncomputable def compute_angular_deviation (submitted_path true_order : List ℤ)
    (points : List Pt) : Option ℝ :=
  if submitted_path.length < 2 ∨ true_order.length < 2 then some 0
  else
    match optionMapList (angularDevOf points)
        ((submitted_path.zip submitted_path.tail).zip
          (true_order.zip true_order.tail)) with
    | none => none
    | some devs => some (devs.sum / devs.length)

theorem optionMapList_isSome {α β : Type} (f : α → Option β) (l : List α)
    (h : ∀ x ∈ l, (f x).isSome) : (optionMapList f l).isSome := by
  induction l with
  | nil => simp [optionMapList]
  | cons x xs ih =>
      have hx := h x (List.mem_cons_self x xs)
      have hxs := ih fun y hy => h y (List.mem_cons_of_mem x hy)
      unfold optionMapList
      rcases hfx : f x with _ | y
      · rw [hfx] at hx; simp at hx
      · rcases hrest : optionMapList f xs with _ | ys
        · rw [hrest] at hxs; simp at hxs
        · simp

theorem pyGet_isSome_of_inRange (l : List Pt) (i : ℤ)
    (h : -(l.length : ℤ) ≤ i ∧ i < l.length) : (pyGet l i).isSome := by
  unfold pyGet
  rcases le_or_lt 0 i with hi | hi
  · rw [if_pos hi]
    have : i.toNat < l.length := by omega
    rw [List.get?_eq_get this]
    simp
  · rw [if_neg (not_le.mpr hi), if_pos (by omega)]
    have : l.length - (-i).toNat < l.length := by omega
    rw [List.get?_eq_get this]
    simp

/-- C7 (counterexample): with the empty point set and two 2-element index
sequences, `compute_angular_deviation` raises `IndexError` (modelled `none`)
instead of returning a sentinel — the function is not total on empty point
sets. -/
theorem c7_counterexample :
    compute_angular_deviation [0, 1] [0, 1] [] = none := by
  rfl

/-- C7 (amended): the documented sentinels hold — Hausdorff distance is `⊤`
(`float('inf')`) on empty input, tortuosity is 1 for fewer than 2 points,
angular deviation is 0 when either sequence has fewer than 2 elements — and
the metrics never raise EXCEPT `compute_angular_deviation`, which is total
only when every index of the compared sequences is a valid Python index of
the point list; an out-of-range index raises `IndexError`
(see `c7_counterexample`). -/
theorem c7_metric_sentinels :
    (∀ A B : List Pt, A = [] ∨ B = [] → compute_hausdorff_distance_sq A B = ⊤) ∧
    (∀ p : List Pt, p.length < 2 → compute_path_tortuosity p = 1) ∧
    (∀ (s t : List ℤ) (pts : List Pt), s.length < 2 ∨ t.length < 2 →
      compute_angular_deviation s t pts = some 0) ∧
    (∀ (s t : List ℤ) (pts : List Pt),
      (∀ i ∈ s, -(pts.length : ℤ) ≤ i ∧ i < pts.length) →
      (∀ i ∈ t, -(pts.length : ℤ) ≤ i ∧ i < pts.length) →
      (compute_angular_deviation s t pts).isSome) := by
  refine ⟨?_, ?_, ?_, ?_⟩
  · intro A B h
    unfold compute_hausdorff_distance_sq
    rw [if_pos h]
  · intro p hp
    unfold compute_path_tortuosity
    rw [if_pos hp]
  · intro s t pts h
    unfold compute_angular_deviation
    rw [if_pos h]
  · intro s t pts hs ht
    unfold compute_angular_deviation
    rcases em (s.length < 2 ∨ t.length < 2) with h | h
    · rw [if_pos h]; simp
    · rw [if_neg h]
      have hall : ∀ pp ∈ (s.zip s.tail).zip (t.zip t.tail),
          (angularDevOf pts pp).isSome := by
        intro pp hpp
        obtain ⟨hu, hv⟩ := List.of_mem_zip hpp
        obtain ⟨hu1, hu2⟩ := List.of_mem_zip hu
        obtain ⟨hv1, hv2⟩ := List.of_mem_zip hv
        have hu2' := (List.tail_sublist s).subset hu2
        have hv2' := (List.tail_sublist t).subset hv2
        unfold angularDevOf
        have g1 := pyGet_isSome_of_inRange pts pp.1.1 (hs _ hu1)
        have g2 := pyGet_isSome_of_inRange pts pp.1.2 (hs _ hu2')
        have g3 := pyGet_isSome_of_inRange pts pp.2.1 (ht _ hv1)
        have g4 := pyGet_isSome_of_inRange pts pp.2.2 (ht _ hv2')
        rcases h1 : pyGet pts pp.1.1 with _ | p1
        · rw [h1] at g1; simp at g1
        rcases h2 : pyGet pts pp.1.2 with _ | p2
        · rw [h2] at g2; simp at g2
        rcases h3 : pyGet pts pp.2.1 with _ | p3
        · rw [h3] at g3; simp at g3
        rcases h4 : pyGet pts pp.2.2 with _ | p4
        · rw [h4] at g4; simp at g4
        simp
      have := optionMapList_isSome (angularDevOf pts) _ hall
      rcases hm : optionMapList (angularDevOf pts)
          ((s.zip s.tail).zip (t.zip t.tail)) with _ | devs
      · rw [hm] at this; simp at this
      · simp

/-- C7 (witness): concrete sentinel and totality instances. -/
theorem c7_witness :
    compute_hausdorff_distance_sq [] [(1, 1)] = ⊤ ∧
    compute_path_tortuosity [(5, 5)] = 1 ∧
    compute_angular_deviation [7] [0, 1] [(0, 0), (1, 0)] = some 0 ∧
    (compute_angular_deviation [0, 1] [1, 0] [(0, 0), (2, 3)]).isSome :=
  ⟨c7_metric_sentinels.1 [] [(1, 1)] (Or.inl rfl),
   c7_metric_sentinels.2.1 [(5, 5)] (by norm_num),
   c7_metric_sentinels.2.2.1 [7] [0, 1] [(0, 0), (1, 0)] (by norm_num),
   c7_metric_sentinels.2.2.2 [0, 1] [1, 0] [(0, 0), (2, 3)] (by decide) (by decide)⟩

/-- C6 (witness): equality of submitted and true order gives similarity 1. -/
theorem c6_witness : compute_vertex_order_similarity [1, 2] [1, 2] = 1 :=
  (c6_vertex_order_similarity [1, 2] [1, 2]).2.mpr ⟨rfl, by decide⟩

/-! ## C1: the polygon peel generator (main.generate_concave_hull_peeling)

`generate_polygon` maps `(level, sublevel)` to a desired vertex count `V`
(min 6), samples `n = V + 8` points in the unit box, triangulates (scipy
`Delaunay`, an oracle here) and peels: while the boundary edge count is
BELOW `V`, it deactivates a random triangle having exactly one boundary
edge; then it chains the boundary edges into a vertex path.  The peel core
below takes the sampled point count, the oracle triangulation, the target
and the random candidate choice (`np.random.randint(len(candidates))`,
modelled by `pick iter n % n`) — the only data the loop reads.  Python
iterates boundary-edge SETS in unspecified order; the embedding fixes the
lexicographic order (the counts, and the length of the chained cycle on a
clean boundary, do not depend on it). -/

/-- Triangle of the (ℕ-indexed) mesh: `tri.simplices` row. -/
abbrev TriN : Type := ℕ × ℕ × ℕ

def sortPairN (u v : ℕ) : ℕ × ℕ := if u ≤ v then (u, v) else (v, u)

/-- The three sorted edges of one triangle. -/
def triEdgesN (t : TriN) : List (ℕ × ℕ) :=
  [sortPairN t.1 t.2.1, sortPairN t.2.1 t.2.2, sortPairN t.2.2 t.1]

def allEdgesN (ts : List TriN) : List (ℕ × ℕ) := ts.flatMap triEdgesN

def insertEdgeN (e : ℕ × ℕ) : List (ℕ × ℕ) → List (ℕ × ℕ)
  | [] => [e]
  | f :: fs =>
      if e.1 < f.1 ∨ (e.1 = f.1 ∧ e.2 ≤ f.2) then e :: f :: fs
      else f :: insertEdgeN e fs

def sortEdgesN (l : List (ℕ × ℕ)) : List (ℕ × ℕ) := l.foldr insertEdgeN []

/-- `get_boundary_edges`: edges occurring exactly once among the active
triangles (a set in the source; here deduplicated and sorted). -/
def boundary_edges (ts : List TriN) : List (ℕ × ℕ) :=
  sortEdgesN ((allEdgesN ts).dedup.filter fun e => (allEdgesN ts).count e = 1)

/-- `simplices[active_mask]`. -/
def activeTris (simplices : List TriN) (mask : List Bool) : List TriN :=
  ((simplices.zip mask).filter fun tb => tb.2).map fun tb => tb.1

/-- Indices of active triangles with exactly one boundary edge
(`np.where(active_mask)[0]` is ascending, matching `List.range`). -/
def peelCandidates (simplices : List TriN) (mask : List Bool)
    (bE : List (ℕ × ℕ)) : List ℕ :=
  (List.range simplices.length).filter fun idx =>
    (mask.get? idx).getD false &&
      decide ((((simplices.get? idx).map triEdgesN).getD []).countP
        (fun e => decide (e ∈ bE)) = 1)

/-- The peeling loop, fuel `2 * len(simplices)` as in the source. -/
def peelLoop (simplices : List TriN) (desired : ℕ) (pick : ℕ → ℕ → ℕ) :
    ℕ → ℕ → List Bool → List Bool
  | 0, _, mask => mask
  | fuel + 1, iter, mask =>
      let act := activeTris simplices mask
      if act = [] then mask
      else
        let bE := boundary_edges act
        if desired ≤ bE.length then mask
        else
          let cands := peelCandidates simplices mask bE
          if cands = [] then mask
          else
            let idx := (cands.get? (pick iter cands.length % cands.length)).getD 0
            peelLoop simplices desired pick fuel (iter + 1) (mask.set idx false)

/-- Adjacency insertion mirroring `adj.setdefault(u, []).append(v)`:
keys keep first-insertion order, neighbour lists keep append order. -/
def addAdj : List (ℕ × List ℕ) → ℕ → ℕ → List (ℕ × List ℕ)
  | [], k, v => [(k, [v])]
  | (k', vs) :: rest, k, v =>
      if k' = k then (k', vs ++ [v]) :: rest else (k', vs) :: addAdj rest k v

def buildAdj (bE : List (ℕ × ℕ)) : List (ℕ × List ℕ) :=
  bE.foldl (fun adj uv => addAdj (addAdj adj uv.1 uv.2) uv.2 uv.1) []

def lookupAdj (adj : List (ℕ × List ℕ)) (k : ℕ) : List ℕ :=
  ((adj.find? fun kv => kv.1 == k).map fun kv => kv.2).getD []

/-- The traversal: follow the first neighbour different from the previous
node, stop at dead ends or on returning to the start; hop budget
`2 * len(pts)`. -/
def walkBoundary (adj : List (ℕ × List ℕ)) (start : ℕ) :
    ℕ → Option ℕ → ℕ → List ℕ → List ℕ
  | 0, _, _, acc => acc.reverse
  | fuel + 1, prev, curr, acc =>
      match (lookupAdj adj curr).find? fun n => decide (some n ≠ prev) with
      | none => acc.reverse
      | some nxt =>
          if nxt = start then acc.reverse
          else walkBoundary adj start fuel (some curr) nxt (nxt :: acc)

/-- `Chain edges / Traverse` of the source. -/
def chainBoundary (nPts : ℕ) (bE : List (ℕ × ℕ)) : List ℕ :=
  let adj := buildAdj bE
  match adj.head? with
  | none => []
  | some kv => walkBoundary adj kv.1 (nPts * 2) none kv.1 [kv.1]

inductive PeelOutcome where
  | path (boundary : List ℕ)
  | radialFallback
  deriving DecidableEq, Repr

/-- The peel core of `generate_concave_hull_peeling`, from the Delaunay
result on: peel loop, final boundary extraction, chaining.
`radialFallback` marks the code paths that fall back to
`generate_simple_polygon_radial`. -/
def generate_concave_hull_peeling_core (nPts : ℕ) (simplices : List TriN)
    (desired : ℕ) (pick : ℕ → ℕ → ℕ) : PeelOutcome :=
  let mask := peelLoop simplices desired pick (2 * simplices.length) 0
    (List.replicate simplices.length true)
  let final := activeTris simplices mask
  if final = [] then .radialFallback
  else
    let bE := boundary_edges final
    if bE = [] then .radialFallback
    else .path (chainBoundary nPts bE)

/-- Orientation determinant of three points. -/
def orient2D (a b c : Pt) : ℚ :=
  (b.1 - a.1) * (c.2 - a.2) - (b.2 - a.2) * (c.1 - a.1)

/-- The classical in-circle determinant: positive times the orientation sign
exactly when `p` is strictly inside the circumcircle of `a b c`. -/
def inCircleDet (a b c p : Pt) : ℚ :=
  (a.1 - p.1) * ((b.2 - p.2) * ((c.1 - p.1) ^ 2 + (c.2 - p.2) ^ 2) -
      ((b.1 - p.1) ^ 2 + (b.2 - p.2) ^ 2) * (c.2 - p.2)) -
    (a.2 - p.2) * ((b.1 - p.1) * ((c.1 - p.1) ^ 2 + (c.2 - p.2) ^ 2) -
      ((b.1 - p.1) ^ 2 + (b.2 - p.2) ^ 2) * (c.1 - p.1)) +
    ((a.1 - p.1) ^ 2 + (a.2 - p.2) ^ 2) *
      ((b.1 - p.1) * (c.2 - p.2) - (b.2 - p.2) * (c.1 - p.1))

def ptOf (pts : List Pt) (i : ℕ) : Pt := (pts.get? i).getD (0, 0)

/-- What it means for the oracle output to be a Delaunay triangulation of
the sampled points: distinct points, nondegenerate triangles with in-range
distinct indices, every edge shared by at most two triangles, and the empty
circumcircle property. -/
def IsDelaunayTriangulation (pts : List Pt) (ts : List TriN) : Prop :=
  pts.Nodup ∧ ts ≠ [] ∧
  (∀ t ∈ ts, t.1 < pts.length ∧ t.2.1 < pts.length ∧ t.2.2 < pts.length ∧
    t.1 ≠ t.2.1 ∧ t.2.1 ≠ t.2.2 ∧ t.2.2 ≠ t.1 ∧
    orient2D (ptOf pts t.1) (ptOf pts t.2.1) (ptOf pts t.2.2) ≠ 0) ∧
  (∀ e ∈ allEdgesN ts, (allEdgesN ts).count e ≤ 2) ∧
  (∀ t ∈ ts, ∀ j ∈ List.range pts.length, j ≠ t.1 → j ≠ t.2.1 → j ≠ t.2.2 →
    ¬ (0 < orient2D (ptOf pts t.1) (ptOf pts t.2.1) (ptOf pts t.2.2) *
        inCircleDet (ptOf pts t.1) (ptOf pts t.2.1) (ptOf pts t.2.2) (ptOf pts j)))

/-- Integer-coordinate twins of the geometric predicates, used to keep the
concrete checks kernel-decidable; the sampled points are these divided by a
common denominator. -/
def orientZ (a b c : ℤ × ℤ) : ℤ :=
  (b.1 - a.1) * (c.2 - a.2) - (b.2 - a.2) * (c.1 - a.1)

def inCircleZ (a b c p : ℤ × ℤ) : ℤ :=
  (a.1 - p.1) * ((b.2 - p.2) * ((c.1 - p.1) ^ 2 + (c.2 - p.2) ^ 2) -
      ((b.1 - p.1) ^ 2 + (b.2 - p.2) ^ 2) * (c.2 - p.2)) -
    (a.2 - p.2) * ((b.1 - p.1) * ((c.1 - p.1) ^ 2 + (c.2 - p.2) ^ 2) -
      ((b.1 - p.1) ^ 2 + (b.2 - p.2) ^ 2) * (c.1 - p.1)) +
    ((a.1 - p.1) ^ 2 + (a.2 - p.2) ^ 2) *
      ((b.1 - p.1) * (c.2 - p.2) - (b.2 - p.2) * (c.1 - p.1))

def ptOfZ (pts : List (ℤ × ℤ)) (i : ℕ) : ℤ × ℤ := (pts.get? i).getD (0, 0)

def IsDelaunayZ (pts : List (ℤ × ℤ)) (ts : List TriN) : Prop :=
  pts.Nodup ∧ ts ≠ [] ∧
  (∀ t ∈ ts, t.1 < pts.length ∧ t.2.1 < pts.length ∧ t.2.2 < pts.length ∧
    t.1 ≠ t.2.1 ∧ t.2.1 ≠ t.2.2 ∧ t.2.2 ≠ t.1 ∧
    orientZ (ptOfZ pts t.1) (ptOfZ pts t.2.1) (ptOfZ pts t.2.2) ≠ 0) ∧
  (∀ e ∈ allEdgesN ts, (allEdgesN ts).count e ≤ 2) ∧
  (∀ t ∈ ts, ∀ j ∈ List.range pts.length, j ≠ t.1 → j ≠ t.2.1 → j ≠ t.2.2 →
    ¬ (0 < orientZ (ptOfZ pts t.1) (ptOfZ pts t.2.1) (ptOfZ pts t.2.2) *
        inCircleZ (ptOfZ pts t.1) (ptOfZ pts t.2.1) (ptOfZ pts t.2.2) (ptOfZ pts j)))

instance (pts : List (ℤ × ℤ)) (ts : List TriN) : Decidable (IsDelaunayZ pts ts) := by
  unfold IsDelaunayZ; infer_instance

/-- Scaling an integer point into the unit box. -/
def scaleToQ (d : ℚ) (p : ℤ × ℤ) : Pt := (d * p.1, d * p.2)

theorem ptOf_scale (d : ℚ) (pts : List (ℤ × ℤ)) (i : ℕ) :
    ptOf (pts.map (scaleToQ d)) i = scaleToQ d (ptOfZ pts i) := by
  unfold ptOf ptOfZ
  rw [List.get?_map]
  rcases pts.get? i with _ | p
  · simp [scaleToQ]
  · simp

theorem orient2D_scale (d : ℚ) (a b c : ℤ × ℤ) :
    orient2D (scaleToQ d a) (scaleToQ d b) (scaleToQ d c) =
      d ^ 2 * (orientZ a b c : ℚ) := by
  unfold orient2D orientZ scaleToQ
  push_cast
  ring

theorem inCircleDet_scale (d : ℚ) (a b c p : ℤ × ℤ) :
    inCircleDet (scaleToQ d a) (scaleToQ d b) (scaleToQ d c) (scaleToQ d p) =
      d ^ 4 * (inCircleZ a b c p : ℚ) := by
  unfold inCircleDet inCircleZ scaleToQ
  push_cast
  ring

/-- A triangulation certified on the integer coordinates is a Delaunay
triangulation of the scaled-down rational points (the geometric sign
conditions are invariant under positive uniform scaling). -/
theorem isDelaunay_of_scaled (pts : List (ℤ × ℤ)) (ts : List TriN) (d : ℚ)
    (hd : 0 < d) (h : IsDelaunayZ pts ts) :
    IsDelaunayTriangulation (pts.map (scaleToQ d)) ts := by
  obtain ⟨hnd, hne, htri, hcount, hcirc⟩ := h
  have hinj : Function.Injective (scaleToQ d) := by
    intro p q hpq
    unfold scaleToQ at hpq
    obtain ⟨h1, h2⟩ := Prod.mk.injEq .. ▸ hpq
    have hd' : d ≠ 0 := ne_of_gt hd
    have e1 : (p.1 : ℚ) = q.1 := mul_left_cancel₀ hd' h1
    have e2 : (p.2 : ℚ) = q.2 := mul_left_cancel₀ hd' h2
    have : p.1 = q.1 := by exact_mod_cast e1
    have : p.2 = q.2 := by exact_mod_cast e2
    exact Prod.ext (by assumption) (by assumption)
  refine ⟨hnd.map hinj, hne, ?_, hcount, ?_⟩
  · intro t ht
    obtain ⟨h1, h2, h3, h4, h5, h6, h7⟩ := htri t ht
    rw [List.length_map]
    refine ⟨h1, h2, h3, h4, h5, h6, ?_⟩
    rw [ptOf_scale, ptOf_scale, ptOf_scale, orient2D_scale]
    intro hzero
    rcases mul_eq_zero.mp hzero with hz | hz
    · exact absurd hz (pow_ne_zero 2 (ne_of_gt hd))
    · exact h7 (by exact_mod_cast hz)
  · intro t ht j hj hj1 hj2 hj3
    rw [List.length_map] at hj
    have hc := hcirc t ht j hj hj1 hj2 hj3
    rw [ptOf_scale, ptOf_scale, ptOf_scale, ptOf_scale, orient2D_scale,
      inCircleDet_scale]
    intro hpos
    apply hc
    have hrearr : d ^ 2 * (orientZ (ptOfZ pts t.1) (ptOfZ pts t.2.1) (ptOfZ pts t.2.2) : ℚ) *
        (d ^ 4 * (inCircleZ (ptOfZ pts t.1) (ptOfZ pts t.2.1) (ptOfZ pts t.2.2) (ptOfZ pts j) : ℚ)) =
          d ^ 6 * ((orientZ (ptOfZ pts t.1) (ptOfZ pts t.2.1) (ptOfZ pts t.2.2) *
            inCircleZ (ptOfZ pts t.1) (ptOfZ pts t.2.1) (ptOfZ pts t.2.2) (ptOfZ pts j) : ℤ) : ℚ) := by
      push_cast
      ring
    rw [hrearr] at hpos
    have hd6 : (0 : ℚ) < d ^ 6 := by positivity
    have hq : (0 : ℚ) < ((orientZ (ptOfZ pts t.1) (ptOfZ pts t.2.1) (ptOfZ pts t.2.2) *
        inCircleZ (ptOfZ pts t.1) (ptOfZ pts t.2.1) (ptOfZ pts t.2.2) (ptOfZ pts j) : ℤ) : ℚ) := by
      by_contra hq
      push_neg at hq
      nlinarith
    exact_mod_cast hq

theorem activeTris_replicate (simplices : List TriN) :
    activeTris simplices (List.replicate simplices.length true) = simplices := by
  induction simplices with
  | nil => rfl
  | cons t ts ih =>
      simp only [List.length_cons, List.replicate_succ]
      unfold activeTris at ih ⊢
      simp only [List.zip_cons_cons, List.filter_cons, List.map_cons]
      simpa using ih

/-- C1 (amended): whenever the initial mesh boundary already has at least
`desired` edges, the peel loop removes no triangle at all and the generator
returns the chained INITIAL boundary — the output polygon is the full
boundary of the Delaunay mesh, however many vertices that has.  The
claimed `[V-1, V+1]` bound therefore fails whenever the sampled points give
a Delaunay mesh whose boundary exceeds `V + 1` edges (e.g. points in convex
position, see `c1_counterexample`). -/
theorem c1_no_peel_returns_initial_boundary (nPts : ℕ) (simplices : List TriN)
    (desired : ℕ) (pick : ℕ → ℕ → ℕ) (h5 : 5 ≤ desired) (hne : simplices ≠ [])
    (hb : desired ≤ (boundary_edges simplices).length) :
    generate_concave_hull_peeling_core nPts simplices desired pick =
      .path (chainBoundary nPts (boundary_edges simplices)) := by
  have hlen : 1 ≤ simplices.length := List.length_pos.mpr hne
  have hbe_ne : boundary_edges simplices ≠ [] := by
    intro hbe
    rw [hbe] at hb
    simp at hb
    omega
  have hmask : peelLoop simplices desired pick (2 * simplices.length) 0
      (List.replicate simplices.length true) = List.replicate simplices.length true := by
    obtain ⟨k, hk⟩ : ∃ k, 2 * simplices.length = k + 1 :=
      ⟨2 * simplices.length - 1, by omega⟩
    rw [hk]
    simp only [peelLoop]
    rw [activeTris_replicate, if_neg hne, if_pos hb]
  unfold generate_concave_hull_peeling_core
  dsimp only
  rw [hmask, activeTris_replicate, if_neg hne, if_neg hbe_ne]

/-- 14 integer points on the parabola `y = x²`: in convex position, no four
cocircular (a circle meets the parabola in at most 4 points whose
parameters sum to 0, impossible with all positive), so their Delaunay
triangulation exists, is unique, and is the fan from the leftmost point. -/
def ptsZ14 : List (ℤ × ℤ) :=
  [(1, 1), (2, 4), (3, 9), (4, 16), (5, 25), (6, 36), (7, 49),
   (8, 64), (9, 81), (10, 100), (11, 121), (12, 144), (13, 169), (14, 196)]

/-- The sampled points of the counterexample: the parabola points uniformly
scaled by 1/197 into the unit box `[0,1)²`, the range of
`sample_points_in_box` (uniform scaling preserves the Delaunay
conditions, see `isDelaunay_of_scaled`). -/
def pts14 : List Pt := ptsZ14.map (scaleToQ (1 / 197))

/-- The fan triangulation from the leftmost parabola point. -/
def fan14 : List TriN :=
  [(0, 1, 2), (0, 2, 3), (0, 3, 4), (0, 4, 5), (0, 5, 6), (0, 6, 7), (0, 7, 8),
   (0, 8, 9), (0, 9, 10), (0, 10, 11), (0, 11, 12), (0, 12, 13)]

def c1HullPath : List ℕ := [0, 1, 2, 3, 4, 5, 6, 7, 8, 9, 10, 11, 12, 13]

set_option maxHeartbeats 1000000 in
theorem isDelaunayZ_ptsZ14 : IsDelaunayZ ptsZ14 fan14 := by decide

/-- C1 (counterexample): a legal sample of `V + 8 = 14` unit-box points
(`V = 6`, the `generate_polygon` vertex count for level 1, sublevel 1) in
convex position.  Their Delaunay mesh boundary already has 14 ≥ 6 edges, so
the generator peels nothing and returns all 14 hull vertices — far outside
`[V-1, V+1] = [5, 7]`. -/
theorem c1_counterexample :
    pts14.length = 6 + 8 ∧
    (∀ p ∈ pts14, 0 ≤ p.1 ∧ p.1 < 1 ∧ 0 ≤ p.2 ∧ p.2 < 1) ∧
    IsDelaunayTriangulation pts14 fan14 ∧
    generate_concave_hull_peeling_core pts14.length fan14 6 (fun _ _ => 0) =
      .path c1HullPath ∧
    c1HullPath.length = 14 ∧
    ¬ (6 - 1 ≤ c1HullPath.length ∧ c1HullPath.length ≤ 6 + 1) := by
  refine ⟨by decide, ?_, ?_, ?_, by decide, by decide⟩
  · intro p hp
    unfold pts14 ptsZ14 at hp
    simp only [List.map_cons, List.map_nil, List.mem_cons, List.not_mem_nil,
      or_false] at hp
    rcases hp with rfl | rfl | rfl | rfl | rfl | rfl | rfl | rfl | rfl | rfl |
      rfl | rfl | rfl | rfl <;> norm_num [scaleToQ]
  · exact isDelaunay_of_scaled ptsZ14 fan14 (1 / 197) (by norm_num) isDelaunayZ_ptsZ14
  · have hlen : pts14.length = 14 := by decide
    rw [hlen]
    decide

/-- C1 (witness): the amended theorem applied to the concrete convex-position
mesh: no peeling happens and the chained initial boundary — all 14
vertices — is returned. -/
theorem c1_witness :
    generate_concave_hull_peeling_core 14 fan14 6 (fun _ _ => 0) =
      .path (chainBoundary 14 (boundary_edges fan14)) ∧
    chainBoundary 14 (boundary_edges fan14) = c1HullPath :=
  ⟨c1_no_peel_returns_initial_boundary 14 fan14 6 (fun _ _ => 0) (by decide)
    (by decide) (by decide), by decide⟩

/-! ## C3: generator determinism under a fixed seed

Randomness model: a pseudorandom generator state is a stream of `[0,1)`
draws plus a position; `random.seed(s)` / `np.random.seed(s)` replace the
state by the stream determined by the seed (the abstract Mersenne-Twister
maps `pymt` / `npmt`, parameters of the theorems).  `random.uniform(a,b)` is
`a + (b-a)·next()`.  Python's `random` and NumPy's `np.random` are two
independent such states.

`generate_maze_corridor(segments, width)` (geometry_utils) takes NO seed
parameter and never seeds: it consumes the ambient Python stream, so two
successive calls with identical parameters continue the stream and differ —
refuting the claim for the maze generator.  The two polygon generators
reseed from their seed argument and are deterministic. -/

structure RngStream where
  draw : ℕ → ℝ
  pos : ℕ

def seedStream (mt : ℤ → ℕ → ℝ) (s : ℤ) : RngStream := ⟨mt s, 0⟩

/-- `random.uniform a b` = `a + (b-a) * random()`, consuming one draw. -/
noncomputable def rngUniform (a b : ℝ) (g : RngStream) : ℝ × RngStream :=
  (a + (b - a) * g.draw g.pos, ⟨g.draw, g.pos + 1⟩)

structure Corridor where
  path : List (ℝ × ℝ)
  left_wall : List (ℝ × ℝ)
  right_wall : List (ℝ × ℝ)

/-- The random-walk loop of `generate_maze_corridor`: per segment, turn by
`uniform(-0.5, 0.5)`, clamp the heading into `[-π+0.2, -0.2]`, advance by
0.08, clamp the position into `[0.2,0.8] × [0.1,0.9]`. -/
noncomputable def mazeGo : ℕ → ℝ → ℝ → ℝ → RngStream → List (ℝ × ℝ) →
    List (ℝ × ℝ) × RngStream
  | 0, _, _, _, g, acc => (acc.reverse, g)
  | k + 1, x, y, ang, g, acc =>
      let ug := rngUniform (-0.5) 0.5 g
      let ang1 := max (-Real.pi + 0.2) (min (-0.2) (ang + ug.1))
      let x1 := max 0.2 (min 0.8 (x + Real.cos ang1 * 0.08))
      let y1 := max 0.1 (min 0.9 (y + Real.sin ang1 * 0.08))
      mazeGo k x1 y1 ang1 ug.2 ((x1, y1) :: acc)

open Classical in
/-- The wall loop: tangent by forward difference (backward at the end, the
fixed default `(0,-1)` for a single point), unit normal (or `(1,0)` on a
zero tangent), offset by `± width`. -/
noncomputable def mazeWalls (path : List (ℝ × ℝ)) (width : ℝ) :
    List (ℝ × ℝ) × List (ℝ × ℝ) :=
  let n := path.length
  let tangent : ℕ → ℝ × ℝ := fun i =>
    if i < n - 1 then
      ((path.getD (i + 1) (0, 0)).1 - (path.getD i (0, 0)).1,
        (path.getD (i + 1) (0, 0)).2 - (path.getD i (0, 0)).2)
    else if 0 < i then
      ((path.getD i (0, 0)).1 - (path.getD (i - 1) (0, 0)).1,
        (path.getD i (0, 0)).2 - (path.getD (i - 1) (0, 0)).2)
    else (0, -1)
  let nrm : ℕ → ℝ × ℝ := fun i =>
    let t := tangent i
    let len := Real.sqrt (t.1 ^ 2 + t.2 ^ 2)
    if 0 < len then (-t.2 / len, t.1 / len) else (1, 0)
  ((List.range n).map fun i =>
      ((path.getD i (0, 0)).1 + (nrm i).1 * width,
        (path.getD i (0, 0)).2 + (nrm i).2 * width),
    (List.range n).map fun i =>
      ((path.getD i (0, 0)).1 - (nrm i).1 * width,
        (path.getD i (0, 0)).2 - (nrm i).2 * width))

/-- Embedding of `generate_maze_corridor`: start at `(0.5, 0.9)` heading
`-π/2`, walk `segments` random steps, then build the two walls.  No seed
parameter exists; the ambient Python stream is threaded through. -/
noncomputable def generate_maze_corridor (segments : ℕ) (width : ℝ)
    (g : RngStream) : Corridor × RngStream :=
  let pg := mazeGo segments 0.5 0.9 (-Real.pi / 2) g [(0.5, 0.9)]
  let walls := mazeWalls pg.1 width
  (⟨pg.1, walls.1, walls.2⟩, pg.2)

/-- A concrete ambient Python RNG state for the maze counterexample. -/
noncomputable def c3Stream : RngStream :=
  ⟨fun n => if n = 0 then (1 / 2 : ℝ) else 3 / 4, 0⟩

theorem c3_maze_run1 :
    (generate_maze_corridor 1 0.15 c3Stream).1.path = [(0.5, 0.9), (0.5, 0.82)] ∧
    (generate_maze_corridor 1 0.15 c3Stream).2 = ⟨c3Stream.draw, 1⟩ := by
  have hpi := Real.pi_gt_3141592
  have e0 : c3Stream.draw c3Stream.pos = 1 / 2 := by simp [c3Stream]
  have hang : max (-Real.pi + 0.2) (min (-0.2) (-Real.pi / 2 +
      (-0.5 + (0.5 - -0.5) * c3Stream.draw c3Stream.pos))) = -Real.pi / 2 := by
    rw [e0, show (-Real.pi / 2 + (-0.5 + (0.5 - -0.5) * (1 / 2 : ℝ))) = -Real.pi / 2
      from by ring]
    rw [min_eq_right (by nlinarith), max_eq_right (by nlinarith)]
  have hcos : Real.cos (-Real.pi / 2) = 0 := by
    rw [show -Real.pi / 2 = -(Real.pi / 2) from by ring, Real.cos_neg,
      Real.cos_pi_div_two]
  have hsin : Real.sin (-Real.pi / 2) = -1 := by
    rw [show -Real.pi / 2 = -(Real.pi / 2) from by ring, Real.sin_neg,
      Real.sin_pi_div_two]
  have hx : max 0.2 (min 0.8 ((0.5 : ℝ) + Real.cos (-Real.pi / 2) * 0.08)) = 0.5 := by
    rw [hcos, show ((0.5 : ℝ) + 0 * 0.08) = 0.5 from by ring]
    rw [min_eq_right (by norm_num), max_eq_right (by norm_num)]
  have hy : max 0.1 (min 0.9 ((0.9 : ℝ) + Real.sin (-Real.pi / 2) * 0.08)) = 0.82 := by
    rw [hsin, show ((0.9 : ℝ) + -1 * 0.08) = 0.82 from by ring]
    rw [min_eq_right (by norm_num), max_eq_right (by norm_num)]
  unfold generate_maze_corridor
  simp only [mazeGo, rngUniform]
  rw [hang, hx, hy]
  exact ⟨rfl, rfl⟩

theorem c3_maze_run2 :
    (generate_maze_corridor 1 0.15 ⟨c3Stream.draw, 1⟩).1.path =
      [(0.5, 0.9), (0.5 + Real.sin 0.25 * 0.08, 0.9 + -Real.cos 0.25 * 0.08)] := by
  have hpi := Real.pi_gt_3141592
  have hpi' := Real.pi_lt_315
  have e1 : c3Stream.draw 1 = 3 / 4 := by norm_num [c3Stream]
  have hang : max (-Real.pi + 0.2) (min (-0.2) (-Real.pi / 2 +
      (-0.5 + (0.5 - -0.5) * (RngStream.mk c3Stream.draw 1).draw
        (RngStream.mk c3Stream.draw 1).pos))) = -(Real.pi / 2 - 0.25) := by
    show max (-Real.pi + 0.2) (min (-0.2) (-Real.pi / 2 +
      (-0.5 + (0.5 - -0.5) * c3Stream.draw 1))) = -(Real.pi / 2 - 0.25)
    rw [e1, show (-Real.pi / 2 + (-0.5 + (0.5 - -0.5) * (3 / 4 : ℝ))) =
      -(Real.pi / 2 - 0.25) from by ring]
    rw [min_eq_right (by nlinarith), max_eq_right (by nlinarith)]
  have hcos : Real.cos (-(Real.pi / 2 - 0.25)) = Real.sin 0.25 := by
    rw [Real.cos_neg, Real.cos_pi_div_two_sub]
  have hsin : Real.sin (-(Real.pi / 2 - 0.25)) = -Real.cos 0.25 := by
    rw [Real.sin_neg, Real.sin_pi_div_two_sub]
  have hs0 : (0 : ℝ) ≤ Real.sin 0.25 :=
    Real.sin_nonneg_of_nonneg_of_le_pi (by norm_num) (by nlinarith)
  have hs1 : Real.sin 0.25 ≤ 1 := Real.sin_le_one _
  have hc1 : Real.cos 0.25 ≤ 1 := Real.cos_le_one _
  have hc0 : (0 : ℝ) < Real.cos 0.25 :=
    Real.cos_pos_of_mem_Ioo ⟨by nlinarith, by nlinarith⟩
  have hx : max 0.2 (min 0.8 ((0.5 : ℝ) + Real.cos (-(Real.pi / 2 - 0.25)) * 0.08)) =
      0.5 + Real.sin 0.25 * 0.08 := by
    rw [hcos, min_eq_right (by nlinarith), max_eq_right (by nlinarith)]
  have hy : max 0.1 (min 0.9 ((0.9 : ℝ) + Real.sin (-(Real.pi / 2 - 0.25)) * 0.08)) =
      0.9 + -Real.cos 0.25 * 0.08 := by
    rw [hsin, min_eq_right (by nlinarith), max_eq_right (by nlinarith)]
  unfold generate_maze_corridor
  simp only [mazeGo, rngUniform]
  rw [hang, hx, hy]
  rfl

/-- C3 (counterexample): the maze corridor generator takes no seed; two
successive calls with identical parameters (`segments = 1`,
`width = 0.15`) from the ambient stream `c3Stream` return different
corridors, so "calling any generator twice with the same seed and
parameters yields bit-identical output" fails for the maze generator. -/
theorem c3_counterexample :
    (generate_maze_corridor 1 0.15 c3Stream).1 ≠
      (generate_maze_corridor 1 0.15
        ((generate_maze_corridor 1 0.15 c3Stream).2)).1 := by
  intro h
  have h1 := c3_maze_run1.1
  have hst := c3_maze_run1.2
  rw [hst] at h
  have hpath := congrArg Corridor.path h
  rw [h1, c3_maze_run2] at hpath
  have hy := congrArg (fun l => (l.getD 1 ((0 : ℝ), (0 : ℝ))).2) hpath
  simp only [List.getD, List.get?, Option.getD] at hy
  have hclt : Real.cos 0.25 < Real.cos 0 :=
    Real.cos_lt_cos_of_nonneg_of_le_pi (le_refl 0)
      (by nlinarith [Real.pi_gt_3141592]) (by norm_num)
  rw [Real.cos_zero] at hclt
  simp at hy
  nlinarith

open Classical in
/-- One point of `sample_points_in_box`: up to 100 attempts of two uniform
draws, accepted when the point list is empty or all squared distances reach
`min_distance² = 0.08²` (the source compares `np.sqrt ≥ 0.08`); on
exhaustion the last draw is accepted anyway. -/
noncomputable def samplePointGo (pts : List (ℝ × ℝ)) : ℕ → RngStream →
    (ℝ × ℝ) × RngStream
  | 0, g => ((0, 0), g)
  | fuel + 1, g =>
      let xg := rngUniform 0 1 g
      let yg := rngUniform 0 1 xg.2
      if pts = [] ∨ (∀ p ∈ pts, (xg.1 - p.1) ^ 2 + (yg.1 - p.2) ^ 2 ≥ 0.08 ^ 2) ∨
          fuel = 0
      then ((xg.1, yg.1), yg.2)
      else samplePointGo pts fuel yg.2

noncomputable def samplePointsGo : ℕ → List (ℝ × ℝ) → RngStream →
    List (ℝ × ℝ) × RngStream
  | 0, acc, g => (acc.reverse, g)
  | k + 1, acc, g =>
      let pg := samplePointGo acc 100 g
      samplePointsGo k (pg.1 :: acc) pg.2

/-- Embedding of `sample_points_in_box` at the unit bbox used by
`generate_polygon` (`np.random.seed(seed)` when a seed is given). -/
noncomputable def sample_points_in_box (n : ℕ) (seed : Option ℤ)
    (mt : ℤ → ℕ → ℝ) (g : RngStream) : List (ℝ × ℝ) × RngStream :=
  let g1 := match seed with | some s => seedStream mt s | none => g
  samplePointsGo n [] g1

/-- Embedding of `generate_concave_hull_peeling` end to end: seed NumPy's
generator, sample (which reseeds again, as the source does), triangulate via
the oracle, then run the peel core; the loop's
`np.random.randint(len(candidates))` values come from the post-sampling
stream (`⌊draw · len⌋`).  `radialFallback` marks the `except`/empty-mesh
paths that fall back to `generate_simple_polygon_radial`. -/
noncomputable def generate_concave_hull_peeling_full (mt : ℤ → ℕ → ℝ)
    (delaunayO : List (ℝ × ℝ) → Option (List TriN)) (n_points desired_vertices : ℕ)
    (seed : Option ℤ) (g : RngStream) : List (ℝ × ℝ) × PeelOutcome :=
  let g0 := match seed with | some s => seedStream mt s | none => g
  let pg := sample_points_in_box n_points seed mt g0
  match delaunayO pg.1 with
  | none => (pg.1, .radialFallback)
  | some tris =>
      (pg.1, generate_concave_hull_peeling_core n_points tris desired_vertices
        fun iter len => (⌊pg.2.draw (pg.2.pos + iter) * len⌋).toNat)

/-- The hull-attempt loop of `generate_convex_polygon`: up to 100 rounds of
`3n` candidate points (`np.random.uniform` over the bbox, row-major), keep
the first `n` hull vertices when the oracle hull is big enough. -/
noncomputable def convexLoop (hullO : List (ℝ × ℝ) → List ℕ) (n : ℕ)
    (bbox : ℝ × ℝ × ℝ × ℝ) : ℕ → RngStream → Option (List (ℝ × ℝ))
  | 0, _ => none
  | k + 1, g =>
      let cands := (List.range (3 * n)).map fun i =>
        (bbox.1 + (bbox.2.2.1 - bbox.1) * g.draw (g.pos + 2 * i),
          bbox.2.1 + (bbox.2.2.2 - bbox.2.1) * g.draw (g.pos + 2 * i + 1))
      let g1 : RngStream := ⟨g.draw, g.pos + 2 * (3 * n)⟩
      let hi := hullO cands
      if n ≤ hi.length then some ((hi.take n).map fun i => cands.getD i (0, 0))
      else convexLoop hullO n bbox k g1

/-- Embedding of `generate_convex_polygon`: seeds BOTH `random` and
`np.random` from the seed; the sorted `x`/`y` lists and the radially sorted
`points` are dead locals whose 4n draws only advance the Python stream; then
the hull loop, and on failure the jittered regular polygon (whose radii
draw from the Python stream). -/
noncomputable def generate_convex_polygon (pymt npmt : ℤ → ℕ → ℝ)
    (hullO : List (ℝ × ℝ) → List ℕ) (n_vertices : ℕ) (seed : Option ℤ)
    (bbox : ℝ × ℝ × ℝ × ℝ) (gpy gnp : RngStream) : List (ℝ × ℝ) :=
  let gp0 := match seed with | some s => seedStream pymt s | none => gpy
  let gn0 := match seed with | some s => seedStream npmt s | none => gnp
  let gp1 : RngStream := ⟨gp0.draw, gp0.pos + 4 * n_vertices⟩
  match convexLoop hullO n_vertices bbox 100 gn0 with
  | some pts => pts
  | none =>
      let cx := (bbox.1 + bbox.2.2.1) / 2
      let cy := (bbox.2.1 + bbox.2.2.2) / 2
      let radius := min (bbox.2.2.1 - bbox.1) (bbox.2.2.2 - bbox.2.1) * 0.4
      (List.range n_vertices).map fun (i : ℕ) =>
        let angle : ℝ := 2 * Real.pi * (i : ℝ) / (n_vertices : ℝ)
        let r : ℝ := radius * (0.8 + (1.0 - 0.8) * gp1.draw (gp1.pos + i))
        (cx + r * Real.cos angle, cy + r * Real.sin angle)

/-- C3 (amended): the two seed-taking generators are deterministic — with
any fixed seed, parameters and oracles, their output does not depend on the
incoming generator states, because both reseed from the seed argument
(`np.random.seed` / `random.seed`), so two calls with the same seed yield
identical output.  The maze corridor generator is excluded: it takes no
seed (see `c3_counterexample`). -/
theorem c3_seeded_generators_deterministic (mt pymt npmt : ℤ → ℕ → ℝ)
    (delaunayO : List (ℝ × ℝ) → Option (List TriN))
    (hullO : List (ℝ × ℝ) → List ℕ) :
    (∀ (n_points desired_vertices : ℕ) (s : ℤ) (g g' : RngStream),
      generate_concave_hull_peeling_full mt delaunayO n_points desired_vertices
          (some s) g =
        generate_concave_hull_peeling_full mt delaunayO n_points desired_vertices
          (some s) g') ∧
    (∀ (n_vertices : ℕ) (s : ℤ) (bbox : ℝ × ℝ × ℝ × ℝ) (gpy gpy' gnp gnp' : RngStream),
      generate_convex_polygon pymt npmt hullO n_vertices (some s) bbox gpy gnp =
        generate_convex_polygon pymt npmt hullO n_vertices (some s) bbox gpy' gnp') :=
  ⟨fun _ _ _ _ _ => rfl, fun _ _ _ _ _ _ _ => rfl⟩
